import Mathlib

/-!
Verification of the tmanager tool registry (Leovalcante/tmanager).

Shallow embedding of the core data model and operations:
  - `Repository.init` / `LocalFile.init` embed the constructors in
    `tmanager/core/tool/repository/repository.py` and
    `tmanager/core/tool/localfile/localfile.py`;
  - `Config` and its operations embed `tmanager/core/config/config.py`;
  - `find_tool`, `sanitize_tags`, `remove_tags` embed
    `tmanager/utilities/commands.py`;
  - the export/import codec embeds the CSV-like serialization in
    `tmanager/commands/export_conf.py` and `tmanager/commands/import_conf.py`;
  - `Repository.perform_pull` embeds `Repository._perform("pull")`.

Python strings are modeled as lists of characters (`PyStr`); Python string
operations (`find`, `replace`, `split`, `strip`, slicing, the substring
test `in`) are given faithful executable counterparts below.  Epoch
timestamps (Python floats holding whole seconds) are modeled as `Nat`;
`None`-able values as `Option`.  Filesystem queries (`os.path.isdir`)
are passed in as an explicit oracle function.
-/

/-- Characters used instead of escaped character literals. -/
def squote : Char := Char.ofNat 39

def dquote : Char := Char.ofNat 34

def bslash : Char := Char.ofNat 92

def nlChar : Char := Char.ofNat 10

def crChar : Char := Char.ofNat 13

def tabChar : Char := Char.ofNat 9

/-- A Python string, modeled as its list of characters. -/
abbrev PyStr := List Char

/-- Conversion of a Lean string literal to a `PyStr`. -/
def pstr (s : String) : PyStr := s.toList

/-- Python `str.lower()` (ASCII). -/
def pyLower (s : PyStr) : PyStr := s.map Char.toLower

/-- Python `str.rstrip(c)` for a single character `c`. -/
def pyRStrip (s : PyStr) (c : Char) : PyStr :=
  (s.reverse.dropWhile (fun x => x = c)).reverse

/-- The whitespace predicate of Python's argument-less `str.strip()`
(CPython's `Py_UNICODE_ISSPACE`): ASCII 0x09-0x0d, the separator control
characters 0x1c-0x1f, the space, and the Unicode space characters NEL,
NBSP, U+1680, U+2000-U+200A, U+2028, U+2029, U+202F, U+205F, U+3000. -/
def pyIsSpace (c : Char) : Bool :=
  (9 ≤ c.toNat && c.toNat ≤ 13) || (28 ≤ c.toNat && c.toNat ≤ 32) ||
  c.toNat = 133 || c.toNat = 160 || c.toNat = 5760 ||
  (8192 ≤ c.toNat && c.toNat ≤ 8202) || c.toNat = 8232 || c.toNat = 8233 ||
  c.toNat = 8239 || c.toNat = 8287 || c.toNat = 12288

/-- Python `str.strip()` (Python whitespace on both ends). -/
def pyStripWS (s : PyStr) : PyStr :=
  ((s.dropWhile pyIsSpace).reverse.dropWhile pyIsSpace).reverse

/-- Python `haystack.find(needle)`: index of the first occurrence of
`needle` in `s`, `none` when absent (Python returns `-1`). -/
def pyFind (s p : PyStr) : Option Nat :=
  if p.isPrefixOf s then some 0
  else
    match s with
    | [] => none
    | _ :: s2 => (pyFind s2 p).map (· + 1)

/-- Python membership test `p in s` on strings (substring containment). -/
def pyContains (s p : PyStr) : Bool := (pyFind s p).isSome

/-- Index of the last occurrence of character `c` in `l`. -/
def lastIdx (l : PyStr) (c : Char) : Option Nat :=
  match l with
  | [] => none
  | x :: xs =>
      match lastIdx xs c with
      | some i => some (i + 1)
      | none => if x = c then some 0 else none

/-- Index (absolute) of the last occurrence of `c` at position `≥ start`:
the `end` computed by `remove_tags`' scanning loop. -/
def lastIdxFrom (s : PyStr) (start : Nat) (c : Char) : Option Nat :=
  (lastIdx (s.drop start) c).map (· + start)

/-- Python slice `s[a:b]` (for `0 ≤ a ≤ b`). -/
def pySlice (s : PyStr) (a b : Nat) : PyStr := (s.drop a).take (b - a)

/-- Recursion core of `pyReplace`, structurally recursive on a fuel
argument that always dominates the remaining length. -/
def pyReplaceAux (p r : PyStr) : Nat → PyStr → PyStr
  | 0, s => s
  | fuel + 1, s =>
      if p ≠ [] ∧ p.isPrefixOf s then r ++ pyReplaceAux p r fuel (s.drop p.length)
      else
        match s with
        | [] => []
        | c :: s2 => c :: pyReplaceAux p r fuel s2

/-- Python `s.replace(p, r)`: replace every (non-overlapping, leftmost)
occurrence of `p` by `r`.  Never used with an empty pattern. -/
def pyReplace (s p r : PyStr) : PyStr := pyReplaceAux p r s.length s

/-- Python `s.split(sep)` for a one-character separator. -/
def pySplit (s : PyStr) (sep : Char) : List PyStr :=
  match s with
  | [] => [[]]
  | x :: xs =>
      if x = sep then [] :: pySplit xs sep
      else
        match pySplit xs sep with
        | h :: t => (x :: h) :: t
        | [] => [[x]]

/-- Python `s.split(sep, 1)` for a one-character separator, exposing only
the two-element outcome: `none` models the one-element outcome, whose
`[1]` access raises `IndexError` at every use site in the source. -/
def splitOnce (s : PyStr) (sep : Char) : Option (PyStr × PyStr) :=
  match s with
  | [] => none
  | x :: xs =>
      if x = sep then some ([], xs)
      else (splitOnce xs sep).map (fun pq => (x :: pq.1, pq.2))

/-- Python dict insertion `d[k] = v` on an association-list model:
replaces the binding of `k` when present, otherwise appends it. -/
def dictInsert {α : Type} (d : List (PyStr × α)) (k : PyStr) (v : α) : List (PyStr × α) :=
  match d with
  | [] => [(k, v)]
  | (k0, v0) :: rest =>
      if k0 = k then (k0, v) :: rest else (k0, v0) :: dictInsert rest k v

/-- Python dict lookup `d[k]`; `none` models `KeyError`. -/
def dictLookup {α : Type} (d : List (PyStr × α)) (k : PyStr) : Option α :=
  match d with
  | [] => none
  | (k0, v0) :: rest => if k0 = k then some v0 else dictLookup rest k

/-!
## Tool model

`ToolRec` is at once the storage record (`Tool.__dict__()`, the JSON
object persisted in `config.json`) and the in-memory value object: both
carry exactly the fields `name, url, tags, type, directory, add_date,
install_date, last_update_date`.
-/

structure ToolRec where
  name : PyStr
  url : PyStr
  tags : List PyStr
  type : PyStr
  directory : PyStr
  add_date : Option Nat
  install_date : Option Nat
  last_update_date : Option Nat
deriving DecidableEq

/-- The five fields the export/import codec preserves. -/
def proj5 (t : ToolRec) : PyStr × PyStr × List PyStr × PyStr × PyStr :=
  (t.name, t.url, t.tags, t.type, t.directory)

/-- Embeds `Repository.__init__` (repository.py): strip trailing `/` from
the url, append `.git` when absent, derive the name from the url's last
segment minus its 4 final characters when the `name` argument is falsy
(Python `name or ...`), fix the type to `git`, and append `/name` to the
directory when it does not already end with `name`. -/
def Repository.init (url directory : PyStr) (name : Option PyStr) (tags : List PyStr)
    (add_date install_date last_update_date : Option Nat) : ToolRec :=
  let url2 := pyRStrip url '/'
  let url3 := if (pstr ".git").isSuffixOf url2 then url2 else url2 ++ pstr ".git"
  let given := match name with | some n => n | none => []
  let nm := if given = [] then ((pySplit url3 '/').getLastD []).dropLast.dropLast.dropLast.dropLast
            else given
  let dir := if nm.isSuffixOf directory then directory
             else directory ++ (if (pstr "/").isSuffixOf directory then [] else pstr "/") ++ nm
  { name := nm, url := url3, tags := tags, type := pstr "git", directory := dir,
    add_date := add_date, install_date := install_date, last_update_date := last_update_date }

/-- Embeds `LocalFile.__init__` (localfile.py): the url is the sentinel
`-`, trailing `/` are stripped from the pathname, the name is the final
path component, the directory defaults to the (stripped) pathname, the
type is fixed to `local`. -/
def LocalFile.init (pathname : PyStr) (directory : Option PyStr) (tags : List PyStr)
    (add_date install_date last_update_date : Option Nat) : ToolRec :=
  let p := pyRStrip pathname '/'
  let nm := (pySplit p '/').getLastD []
  let dir := match directory with | some d => d | none => p
  { name := nm, url := pstr "-", tags := tags, type := pstr "local", directory := dir,
    add_date := add_date, install_date := install_date, last_update_date := last_update_date }

/-!
## Registry store (`Config`, config.py)

The loaded configuration: the two scalar settings plus the stored tool
records (the value of the `tools` key).
-/

structure Config where
  default_installation_directory : PyStr
  automatic_install : Bool
  tools : List ToolRec
deriving DecidableEq

/-- Embeds `Config.get_tools()` (with the default `repo_only=False`):
each stored record is re-materialized through the matching constructor —
`Repository` when the stored url differs from `-` (forwarding name, tags
and all three dates), `LocalFile` otherwise (forwarding only the
directory as pathname, the tags and the add date). -/
def Config.get_tools (cfg : Config) : List ToolRec :=
  cfg.tools.map (fun t =>
    if t.url = pstr "-" then
      LocalFile.init t.directory none t.tags t.add_date none none
    else
      Repository.init t.url t.directory (some t.name) t.tags
        t.add_date t.install_date t.last_update_date)

/-- Embeds `Config.add_tool`: appends the tool's storage record. -/
def Config.add_tool (cfg : Config) (tool : ToolRec) : Config :=
  { cfg with tools := cfg.tools ++ [tool] }

/-- Embeds `Config.remove_tool`: Python `list.remove` of the first stored
record equal (all eight fields) to `tool.__dict__()`.  Python raises
`ValueError` when no record matches; that case is modeled as a no-op and
is never reached by the operations verified here. -/
def Config.remove_tool (cfg : Config) (tool : ToolRec) : Config :=
  { cfg with tools := removeFirst cfg.tools tool }
where removeFirst : List ToolRec → ToolRec → List ToolRec
  | [], _ => []
  | t :: ts, x => if t = x then ts else t :: removeFirst ts x

/-- Embeds `Config.update_tool`: iterate over the snapshot
`self.get_tools()` and, for every entry whose name equals the argument's
name, remove it and append the argument. -/
def Config.update_tool (cfg : Config) (tool : ToolRec) : Config :=
  (cfg.get_tools).foldl
    (fun c t => if t.name = tool.name then (c.remove_tool t).add_tool tool else c) cfg

/-- Embeds `Config.remove_all_tools`: returns the previous length of the
stored tool list and clears it. -/
def Config.remove_all_tools (cfg : Config) : Nat × Config :=
  (cfg.tools.length, { cfg with tools := [] })

/-- Embeds `Config.already_managed`: true when some managed tool has the
same name, or when some managed tool's directory is an existing directory
on disk (`os.path.isdir`, passed as the oracle `isdir`) and is a string
prefix (`str.startswith`) of the candidate's directory. -/
def Config.already_managed (isdir : PyStr → Bool) (cfg : Config) (tool : ToolRec) : Bool :=
  (cfg.get_tools).any (fun t =>
    tool.name = t.name ∨ (isdir t.directory ∧ t.directory.isPrefixOf tool.directory))

/-- A value of the Python `Config` dict (a `dict` subclass): string
settings, the boolean setting, or the tool list. -/
inductive PyVal where
  | vStr (s : PyStr)
  | vBool (b : Bool)
  | vTools (ts : List ToolRec)
deriving DecidableEq

/-- The Python `Config` object seen as the raw mapping it subclasses. -/
def RawConfig := List (PyStr × PyVal)

/-- The raw mapping of a loaded configuration. -/
def Config.toRaw (cfg : Config) : RawConfig :=
  [(pstr "default_installation_directory", PyVal.vStr cfg.default_installation_directory),
   (pstr "automatic_install", PyVal.vBool cfg.automatic_install),
   (pstr "tools", PyVal.vTools cfg.tools)]

/-- Embeds `Config.is_empty`: `return bool(self)` — the truthiness of the
underlying dict, i.e. whether the mapping holds at least one key. -/
def Config.is_empty (d : RawConfig) : Bool := !d.isEmpty

/-!
## Query engine (`find_tool`, utilities/commands.py)

Criteria as passed by the CLI layer: `url` and `tags` as optional strings
(`None` when absent), `name` and `type` as tuples of strings (empty when
absent, as produced by `click`'s `multiple=True` options), the epoch
threshold as an optional number.  A criterion is supplied exactly when
its Python value is truthy.
-/

/-- Embeds `sanitize_tags` (utilities/commands.py) applied to a
comma-separated tag string: split on `,`, strip each entry and remove its
spaces, drop empties. -/
def sanitize_tags (tags : Option PyStr) : List PyStr :=
  match tags with
  | none => []
  | some s =>
      if s = [] then []
      else ((pySplit s ',').map (fun t => (pyStripWS t).filter (fun c => c ≠ ' '))).filter
        (fun t => t ≠ [])

/-- The query-url normalization inside `find_tool`: append `.git` when
the supplied url does not already end with it. -/
def normalizeQueryUrl (u : PyStr) : PyStr :=
  if (pstr ".git").isSuffixOf u then u else u ++ pstr ".git"

structure Criteria where
  url : Option PyStr
  tags : Option PyStr
  name : List PyStr
  type : List PyStr
  last_update_date : Option Nat
deriving DecidableEq

/-- The url check of `find_tool`: `tool.get_url() not in search_terms["url"]`
is Python's substring test of the tool url inside the normalized query url. -/
def urlCrit (c : Criteria) (t : ToolRec) : Bool :=
  match c.url with
  | none => true
  | some u => pyContains (normalizeQueryUrl u) t.url

/-- The tags check of `find_tool`: the sanitized query tags, lowered, must
be a subset of the tool's lowered tags. -/
def tagsCrit (c : Criteria) (t : ToolRec) : Bool :=
  let q := sanitize_tags c.tags
  if q.isEmpty then true
  else (q.map pyLower).all (fun x => (t.tags.map pyLower).contains x)

/-- The name check of `find_tool`: strict membership, or — with the
flexible flag — case-insensitive equality or substring containment of a
query name inside the tool name. -/
def nameCrit (c : Criteria) (f : Bool) (t : ToolRec) : Bool :=
  if c.name.isEmpty then true
  else if f then
    c.name.any (fun q =>
      pyLower t.name = pyLower q ∨ pyContains (pyLower t.name) (pyLower q))
  else c.name.contains t.name

/-- The type check of `find_tool`: membership of the tool type among the
supplied types. -/
def typeCrit (c : Criteria) (t : ToolRec) : Bool :=
  if c.type.isEmpty then true else c.type.contains t.type

/-- The date check of `find_tool`: the tool's `last_update_date` must be
non-`None` and `≥` the threshold.  A threshold of `0` is falsy in Python,
so the criterion is then not supplied. -/
def ludCrit (c : Criteria) (t : ToolRec) : Bool :=
  match c.last_update_date with
  | none => true
  | some d =>
      if d = 0 then true
      else match t.last_update_date with
           | none => false
           | some x => decide (d ≤ x)

/-- The conjunction of the five per-criterion flags computed by
`find_tool`'s loop body. -/
def Criteria.check (c : Criteria) (f : Bool) (t : ToolRec) : Bool :=
  urlCrit c t && tagsCrit c t && nameCrit c f t && typeCrit c t && ludCrit c t

/-- The accumulation loop of `find_tool`: append each tool whose five
flags all remained true. -/
def findLoop (p : ToolRec → Bool) : List ToolRec → List ToolRec
  | [] => []
  | t :: ts => if p t then t :: findLoop p ts else findLoop p ts

/-- Embeds `find_tool` (utilities/commands.py): filter `cfg.get_tools()`
by the conjunction of the supplied criteria. -/
def find_tool (cfg : Config) (c : Criteria) (f : Bool) : List ToolRec :=
  findLoop (fun t => c.check f t) (cfg.get_tools)

/-- No criterion supplied. -/
def Criteria.noCrit : Criteria := ⟨none, none, [], [], none⟩

/-- Whether each criterion of a `Criteria` record is supplied (truthy). -/
def Criteria.urlActive (c : Criteria) : Bool := c.url.isSome

def Criteria.tagsActive (c : Criteria) : Bool := !(sanitize_tags c.tags).isEmpty

def Criteria.nameActive (c : Criteria) : Bool := !c.name.isEmpty

def Criteria.typeActive (c : Criteria) : Bool := !c.type.isEmpty

def Criteria.ludActive (c : Criteria) : Bool :=
  match c.last_update_date with
  | none => false
  | some d => d ≠ 0

/-- Two criteria records supply disjoint sets of fields. -/
def Criteria.disjoint (c1 c2 : Criteria) : Bool :=
  !(c1.urlActive && c2.urlActive) && !(c1.tagsActive && c2.tagsActive) &&
  !(c1.nameActive && c2.nameActive) && !(c1.typeActive && c2.typeActive) &&
  !(c1.ludActive && c2.ludActive)

/-- Supplying the union of the fields of two records: each field is taken
from whichever record supplies it. -/
def Criteria.merge (c1 c2 : Criteria) : Criteria :=
  ⟨if c1.urlActive then c1.url else c2.url,
   if c1.tagsActive then c1.tags else c2.tags,
   if c1.nameActive then c1.name else c2.name,
   if c1.typeActive then c1.type else c2.type,
   if c1.ludActive then c1.last_update_date else c2.last_update_date⟩

/-!
## Export codec (`export_conf`, commands/export_conf.py)

Each exported line is the comma-joined `key-value` rendering of the
Python dict entries; the tags value is rendered by the f-string as the
Python `str()` of the tag list.
-/

/-- A lowercase hexadecimal digit, as in CPython's string escapes. -/
def hexDigit (n : Nat) : Char := if n < 10 then Char.ofNat (48 + n) else Char.ofNat (87 + n)

/-- Python `repr`'s rendering of one character of a string, given the
chosen quote `q`: the quote and the backslash are backslash-escaped; tab,
newline and carriage return become two-character escapes; every other
non-printable character becomes a hex escape of the shape backslash-x
followed by two hex digits.  Printability of codepoints at and above
0x100 follows the Unicode tables and those codepoints are kept verbatim
here, so this model is exact for all codepoints below 0x100 (the
non-printable ones there are 0x00-0x1f, 0x7f-0xa0 and 0xad) — in
particular on every character `safeChar` below admits. -/
def reprEscapeChar (q c : Char) : PyStr :=
  if c = q ∨ c = bslash then [bslash, c]
  else if c = tabChar then [bslash, 't']
  else if c = nlChar then [bslash, 'n']
  else if c = crChar then [bslash, 'r']
  else if c.toNat < 32 ∨ (127 ≤ c.toNat ∧ c.toNat ≤ 160) ∨ c.toNat = 173 then
    [bslash, 'x', hexDigit (c.toNat / 16), hexDigit (c.toNat % 16)]
  else [c]

/-- The escaped rendering of a string's characters, one by one. -/
def reprChars (q : Char) : PyStr → PyStr
  | [] => []
  | c :: cs => reprEscapeChar q c ++ reprChars q cs

/-- Python `repr`'s choice of quote: single quote, except when the string
contains a single quote but no double quote. -/
def reprQuote (s : PyStr) : Char :=
  if s.contains squote && !(s.contains dquote) then dquote else squote

/-- Python `repr` of one tag string as rendered inside `str(list)`: the
chosen quote around the escaped characters. -/
def pyReprStr (s : PyStr) : PyStr :=
  reprQuote s :: reprChars (reprQuote s) s ++ [reprQuote s]

/-- The comma-space-joined body of Python `str(list)`. -/
def reprBody : List PyStr → PyStr
  | [] => []
  | [t] => pyReprStr t
  | t :: rest => pyReprStr t ++ ',' :: ' ' :: reprBody rest

/-- Python `str()` of a list of strings, e.g. `['t1', 't2']`. -/
def pyReprList (ts : List PyStr) : PyStr := '[' :: reprBody ts ++ [']']

/-- The exported line of one tool: the non-date entries of
`repo.__dict__()` in dict order (`name, url, tags, type, directory`),
each as `key-value`, comma-joined. -/
def encodeToolLine (t : ToolRec) : PyStr :=
  pstr "name-" ++ t.name ++ pstr ",url-" ++ t.url ++ pstr ",tags-" ++ pyReprList t.tags ++
  pstr ",type-" ++ t.type ++ pstr ",directory-" ++ t.directory

/-- Python `str()` of a bool. -/
def pyStrOfBool (b : Bool) : PyStr := if b then pstr "True" else pstr "False"

/-- The first exported line: every non-`tools` configuration key as
`key-value`, comma-joined (dict order). -/
def encodeSettingsLine (cfg : Config) : PyStr :=
  pstr "default_installation_directory-" ++ cfg.default_installation_directory ++
  pstr ",automatic_install-" ++ pyStrOfBool cfg.automatic_install

/-- Embeds the serialization performed by `export_conf`: the settings
line followed by one line per tool of `configs.get_tools()`. -/
def Config.encodeLines (cfg : Config) : List PyStr :=
  encodeSettingsLine cfg :: (cfg.get_tools).map encodeToolLine

/-!
## Import codec (`_import_conf_file`, commands/import_conf.py, with
`remove_tags` from utilities/commands.py)
-/

/-- Embeds `remove_tags`: locate `tags-[`, scan for the last `]` at or
after it, cut that slice out of the line (Python `str.replace` with the
empty string), and parse the slice's bracketed body into tags — comma
split, strip, then drop the first and last character of every token,
keeping non-empty results.  `none` models the `IndexError` Python raises
(via `split("-", 1)[1]`) when the marker or the bracket is absent. -/
def remove_tags (line : PyStr) : Option (PyStr × List PyStr) :=
  match pyFind line (pstr "tags-[") with
  | none => none
  | some start =>
      match lastIdxFrom line start ']' with
      | none => none
      | some e =>
          let tag_str := pySlice line start (e + 1)
          let line2 := pyReplace line tag_str []
          match splitOnce tag_str '-' with
          | none => none
          | some pq =>
              let inner := pq.2.drop 1 |>.dropLast
              let tags := ((pySplit inner ',').map
                (fun k => ((pyStripWS k).drop 1).dropLast)).filter (fun t => t ≠ [])
              some (line2, tags)

/-- The property-dict construction loop of `_import_conf_file`: walk the
comma chunks of the tag-free line, skip empty chunks, split each at its
first `-` (`none` models the `IndexError` on a dash-free chunk), abort
with a skipped tool (`some none`) when a `type` chunk fails the supplied
type filter, otherwise insert into the dict. -/
def buildDict (ity : Option (List PyStr)) : List PyStr → List (PyStr × PyStr) →
    Option (Option (List (PyStr × PyStr)))
  | [], acc => some (some acc)
  | prop :: rest, acc =>
      if prop = [] then buildDict ity rest acc
      else
        match splitOnce prop '-' with
        | none => none
        | some kv =>
            if kv.1 = pstr "type" && (match ity with
                                      | some l => !l.contains kv.2
                                      | none => false) then
              some none
            else buildDict ity rest (dictInsert acc kv.1 kv.2)

/-- Embeds the per-tool-line body of `_import_conf_file` (importing into
a registry with no previously managed tools, so the name-conflict prompt
never triggers and every decoded tool is appended).  Result: `none` for a
Python exception, `some none` for a line skipped by the type/tag filters,
`some (some t)` for a decoded tool.  `now` is `time.time()`; the
`os.path.exists` branch is immaterial because both of its arms build the
same `LocalFile`. -/
def decodeToolLine (now : Nat) (ity itg : Option (List PyStr)) (line : PyStr) :
    Option (Option ToolRec) :=
  match remove_tags (pyStripWS line) with
  | none => none
  | some lt =>
      let line2 := lt.1
      let tags := lt.2
      if (match itg with | some l => !l.isEmpty | none => false) &&
         !(tags.any (fun tg => (itg.getD []).contains tg)) then
        some none
      else
        match buildDict ity (pySplit line2 ',') [] with
        | none => none
        | some none => some none
        | some (some dict) =>
            match dictLookup dict (pstr "url") with
            | none => none
            | some u =>
                if u = pstr "-" then
                  match dictLookup dict (pstr "directory") with
                  | none => none
                  | some d => some (some (LocalFile.init d none tags (some now) none none))
                else
                  match dictLookup dict (pstr "directory") with
                  | none => none
                  | some d =>
                      match dictLookup dict (pstr "name") with
                      | none => none
                      | some n =>
                          some (some (Repository.init u d (some n) tags (some now) none none))

/-- A decoded configuration-file settings value: `True`/`False` strings
are coerced to booleans, everything else stays a string. -/
inductive SettingVal where
  | vStr (s : PyStr)
  | vBool (b : Bool)
deriving DecidableEq

/-- Embeds the first-line branch of `_import_conf_file`: split the
settings line on `,`, split each chunk at its first `-` (`none` models
the `IndexError` on a dash-free chunk), coerce boolean-looking values,
and insert into the configuration mapping. -/
def decodeSettings (line : PyStr) : Option (List (PyStr × SettingVal)) :=
  go (pySplit line ',') []
where go : List PyStr → List (PyStr × SettingVal) → Option (List (PyStr × SettingVal))
  | [], acc => some acc
  | chunk :: rest, acc =>
      match splitOnce chunk '-' with
      | none => none
      | some kv =>
          let v := if kv.2 = pstr "True" then SettingVal.vBool true
                   else if kv.2 = pstr "False" then SettingVal.vBool false
                   else SettingVal.vStr kv.2
          go rest (dictInsert acc kv.1 v)

/-- The settings of the importing registry together with the storage
records of the tools appended by the import. -/
structure ImportedConf where
  settings : List (PyStr × SettingVal)
  tools : List ToolRec
deriving DecidableEq

/-- The tool-line loop of `_import_conf_file`: decode each line in order,
propagate exceptions, skip filtered lines, append decoded tools. -/
def decodeToolLines (now : Nat) (ity itg : Option (List PyStr)) :
    List PyStr → List ToolRec → Option (List ToolRec)
  | [], acc => some acc
  | l :: ls, acc =>
      match decodeToolLine now ity itg l with
      | none => none
      | some none => decodeToolLines now ity itg ls acc
      | some (some t) => decodeToolLines now ity itg ls (acc ++ [t])

/-- Embeds `_import_conf_file` on the list of lines of an exported
configuration file, importing into a freshly initialized registry: the
first (stripped) line populates the settings mapping, every further line
is decoded as a tool and appended. -/
def decodeConf (now : Nat) (ity itg : Option (List PyStr)) (lines : List PyStr) :
    Option ImportedConf :=
  match lines with
  | [] => some ⟨[], []⟩
  | l1 :: rest =>
      match decodeSettings (pyStripWS l1) with
      | none => none
      | some st => (decodeToolLines now ity itg rest []).map (fun ts => ⟨st, ts⟩)

/-!
## Update operation (`Repository._perform("pull")`, repository.py, and
the `update` command, commands/update.py)

The Python instance carries the underscore-prefixed attributes set by
`Tool.__init__` (modeled by the `tool` field, read by every getter and by
`__dict__()`), and — after a successful `_perform` — a separate,
dynamically created attribute `last_update_date`, which no getter and no
persistence path ever reads.
-/

structure RepoPyObj where
  tool : ToolRec
  stray_last_update_date : Option Nat
deriving DecidableEq

/-- `Tool.get_last_update_date`: returns `self._last_update_date`. -/
def Repository.get_last_update_date (r : RepoPyObj) : Option Nat :=
  r.tool.last_update_date

/-- Outcome of the sync collaborator's `pull` (GitPython), as observed by
`_perform`: a normal return starting with `Already up`, a normal return
otherwise, or a raised `git.exc` exception mapped to its handler's status
code (1–11). -/
inductive PullOutcome where
  | success
  | alreadyCurrent
  | exc (code : Nat)
deriving DecidableEq

/-- Embeds `Repository._perform("pull")`: returns the status code and the
object state after the call.  On the success path the source executes
`self.last_update_date = utl_dates.now()`, which creates the stray
non-underscore attribute and leaves `self._last_update_date` untouched. -/
def Repository.perform_pull (r : RepoPyObj) (now : Nat) (g : PullOutcome) :
    Nat × RepoPyObj :=
  match g with
  | .alreadyCurrent => (1, r)
  | .exc code => (code, r)
  | .success => (0, { r with stray_last_update_date := some now })

/-!
## Basic lemmas
-/

theorem get_tools_length (cfg : Config) : (cfg.get_tools).length = cfg.tools.length := by
  simp [Config.get_tools]

theorem findLoop_eq_filter (p : ToolRec → Bool) (l : List ToolRec) :
    findLoop p l = l.filter p := by
  induction l with
  | nil => rfl
  | cons t ts ih =>
      by_cases h : p t <;> simp [findLoop, h, ih, List.filter_cons]

/-!
## Claim theorems: registry store basics
-/

/-- C9: `Config.is_empty` returns `True` exactly when the configuration
mapping contains at least one key, and `False` when it is empty — it
reports non-emptiness, the negation of what its name suggests. -/
theorem is_empty_reports_nonempty (d : RawConfig) :
    Config.is_empty d = true ↔ d ≠ [] := by
  cases d <;> simp [Config.is_empty, List.isEmpty]

/-- C8: `remove_all_tools` returns the number of tools the registry held
before the call, leaves the tool list empty, and leaves the two scalar
settings unchanged. -/
theorem remove_all_tools_spec (cfg : Config) :
    (cfg.remove_all_tools).1 = (cfg.get_tools).length ∧
    (cfg.remove_all_tools).2.tools = [] ∧
    (cfg.remove_all_tools).2.default_installation_directory =
      cfg.default_installation_directory ∧
    (cfg.remove_all_tools).2.automatic_install = cfg.automatic_install := by
  refine ⟨?_, rfl, rfl, rfl⟩
  simp [Config.remove_all_tools, get_tools_length]

/-- C4 (code bug evidence): after a successful pull, `_perform` returns
status `0` and sets only the stray non-underscore attribute; the value
read by `get_last_update_date` (and by `__dict__()`, hence by every
persistence path) is unchanged — not the current time. -/
theorem perform_pull_success_leaves_getter (r : RepoPyObj) (now : Nat) :
    (Repository.perform_pull r now .success).1 = 0 ∧
    Repository.get_last_update_date (Repository.perform_pull r now .success).2 =
      Repository.get_last_update_date r ∧
    (Repository.perform_pull r now .success).2.stray_last_update_date = some now := by
  exact ⟨rfl, rfl, rfl⟩

/-- C4 failing input: a repository never updated before (`None` date)
whose pull succeeds at epoch `1000` still reports `None`. -/
theorem perform_pull_failing_input :
    Repository.get_last_update_date
      (Repository.perform_pull
        ⟨Repository.init (pstr "https://example.com/foo") (pstr "/home/u/.tman/")
          none [] none none none, none⟩ 1000 .success).2 = none := rfl

/-- C10: updating with a tool whose name matches no managed tool's name
leaves the registry (and in particular its tool list) unchanged. -/
theorem update_tool_frame (cfg : Config) (tool : ToolRec)
    (h : ∀ t ∈ cfg.get_tools, t.name ≠ tool.name) :
    cfg.update_tool tool = cfg := by
  unfold Config.update_tool
  have : ∀ (l : List ToolRec) (c : Config), (∀ t ∈ l, t.name ≠ tool.name) →
      l.foldl (fun c t => if t.name = tool.name then (c.remove_tool t).add_tool tool else c) c
        = c := by
    intro l
    induction l with
    | nil => intro c _; rfl
    | cons x xs ih =>
        intro c hl
        have hx : x.name ≠ tool.name := hl x (by simp)
        simp only [List.foldl_cons, if_neg hx]
        exact ih c (fun t ht => hl t (by simp [ht]))
  exact this _ cfg h

/-- Witness for C10 at a concrete registry and tool. -/
theorem update_tool_frame_witness :
    Config.update_tool
      ⟨pstr "/home/u/.tman/", false,
       [⟨pstr "a", pstr "-", [], pstr "local", pstr "/tmp/a", none, none, none⟩]⟩
      ⟨pstr "b", pstr "-", [], pstr "local", pstr "/tmp/b", none, none, none⟩ =
      ⟨pstr "/home/u/.tman/", false,
       [⟨pstr "a", pstr "-", [], pstr "local", pstr "/tmp/a", none, none, none⟩]⟩ :=
  update_tool_frame _ _ (by decide)

/-!
## Claim theorems: membership / containment
-/

/-- C7: `already_managed` is true exactly when some managed tool shares
the candidate's name, or some managed tool's directory exists on disk and
is a string prefix of the candidate's directory; in particular it is true
on a shared name and on a candidate whose directory strictly extends an
on-disk managed directory. -/
theorem already_managed_spec (isdir : PyStr → Bool) (cfg : Config) (tool : ToolRec) :
    (Config.already_managed isdir cfg tool = true ↔
      ∃ t ∈ cfg.get_tools,
        (tool.name = t.name ∨ (isdir t.directory = true ∧
          t.directory.isPrefixOf tool.directory = true))) ∧
    (∀ t ∈ cfg.get_tools, t.name = tool.name →
      Config.already_managed isdir cfg tool = true) ∧
    (∀ t ∈ cfg.get_tools, isdir t.directory = true → ∀ s, s ≠ [] →
      tool.directory = t.directory ++ s →
      Config.already_managed isdir cfg tool = true) := by
  have key : Config.already_managed isdir cfg tool = true ↔
      ∃ t ∈ cfg.get_tools,
        (tool.name = t.name ∨ (isdir t.directory = true ∧
          t.directory.isPrefixOf tool.directory = true)) := by
    simp [Config.already_managed, List.any_eq_true]
  refine ⟨key, ?_, ?_⟩
  · intro t ht hn
    exact key.mpr ⟨t, ht, Or.inl hn.symm⟩
  · intro t ht hd s _ hs
    refine key.mpr ⟨t, ht, Or.inr ⟨hd, ?_⟩⟩
    rw [hs]
    exact List.isPrefixOf_iff_prefix.mpr (List.prefix_append _ _)

/-- Witness for C7: a candidate below the on-disk directory of a managed
tool is reported as already managed. -/
theorem already_managed_spec_witness :
    Config.already_managed (fun d => d == pstr "/opt/t1")
      ⟨pstr "/h/", false,
       [⟨pstr "t1", pstr "-", [], pstr "local", pstr "/opt/t1", none, none, none⟩]⟩
      ⟨pstr "y", pstr "-", [], pstr "local", pstr "/opt/t1/sub", none, none, none⟩ = true :=
  (already_managed_spec (fun d => d == pstr "/opt/t1") _ _).2.2
    ⟨pstr "t1", pstr "-", [], pstr "local", pstr "/opt/t1", none, none, none⟩
    (by decide) (by decide) (pstr "/sub") (by decide) (by decide)

/-!
## Claim theorems: decoding the demo line (C5)
-/

/-- The tool actually produced by decoding the demo line: the tag tokens
`t1` and `t2` each lose their first and last character (the code strips
quote positions unconditionally), become empty, and are dropped. -/
def demoLineTool : ToolRec :=
  ⟨pstr "demo", pstr "-", [], pstr "local", pstr "/tmp/demo", some 7, none, none⟩

/-- C5 counterexample: decoding the demo line (name `demo`, sentinel
url, type `local`, unquoted tag segment `tags-[t1,t2]`, directory
`tmp demo`) yields a tool whose tag list is empty, not `["t1","t2"]`. -/
theorem decode_demo_line_counterexample :
    decodeToolLine 7 none none
      (pstr "name-demo,url--,type-local,tags-[t1,t2],directory-/tmp/demo") =
      some (some demoLineTool) ∧ demoLineTool.tags ≠ [pstr "t1", pstr "t2"] := by
  constructor
  · rfl
  · decide

/-- C5 amended: decoding the demo line yields a `LocalFile`-shaped tool
(name `demo`, sentinel url, type `local`, directory `/tmp/demo`) whose
tag list is empty, because each unquoted two-character tag token is
stripped of its first and last character and discarded. -/
theorem decode_demo_line_amended (now : Nat) :
    decodeToolLine now none none
      (pstr "name-demo,url--,type-local,tags-[t1,t2],directory-/tmp/demo") =
      some (some ⟨pstr "demo", pstr "-", [], pstr "local", pstr "/tmp/demo",
        some now, none, none⟩) := by
  rfl

/-!
## Claim theorems: url criterion (C3)
-/

/-- C3 amended: with only a url criterion supplied, `find_tool` returns
exactly the tools whose url is a substring of the normalized
(`.git`-suffixed) query url — Python's `in`, not equality. -/
theorem find_tool_url_substring (cfg : Config) (u : PyStr) (f : Bool) :
    find_tool cfg ⟨some u, none, [], [], none⟩ f =
      (cfg.get_tools).filter (fun t => pyContains (normalizeQueryUrl u) t.url) := by
  rw [find_tool, findLoop_eq_filter]
  apply List.filter_congr
  intro t _
  simp [Criteria.check, urlCrit, tagsCrit, nameCrit, typeCrit, ludCrit, sanitize_tags]

/-- C3 counterexample: the sentinel url `-` of a local tool is a
substring of the normalized query url `https://example.com/a-b.git`, so
the tool is returned although its url differs from the query url. -/
theorem find_tool_url_counterexample :
    find_tool ⟨pstr "/h/", false,
        [⟨pstr "x", pstr "-", [], pstr "local", pstr "/tmp/x", none, none, none⟩]⟩
      ⟨some (pstr "https://example.com/a-b"), none, [], [], none⟩ false =
      [⟨pstr "x", pstr "-", [], pstr "local", pstr "/tmp/x", none, none, none⟩] ∧
    (⟨pstr "x", pstr "-", [], pstr "local", pstr "/tmp/x", none, none, none⟩ : ToolRec).url ≠
      normalizeQueryUrl (pstr "https://example.com/a-b") := by
  constructor
  · rfl
  · decide

/-!
## Lemmas about `pySplit`
-/

theorem pySplit_ne_nil (s : PyStr) (sep : Char) : pySplit s sep ≠ [] := by
  cases s with
  | nil => simp [pySplit]
  | cons c s2 =>
      by_cases h : c = sep
      · simp [pySplit, h]
      · simp only [pySplit, if_neg h]
        rcases hs : pySplit s2 sep with _ | ⟨a, b⟩ <;> simp

theorem pySplit_no_sep (s : PyStr) (sep : Char) (h : sep ∉ s) : pySplit s sep = [s] := by
  induction s with
  | nil => rfl
  | cons c s2 ih =>
      have hc : ¬ c = sep := by
        intro hcc; exact h (by simp [hcc])
      have h2 : sep ∉ s2 := fun hm => h (by simp [hm])
      simp [pySplit, hc, ih h2]

theorem pySplit_append_sep (X R : PyStr) (sep : Char) (hX : sep ∉ X) :
    pySplit (X ++ sep :: R) sep = X :: pySplit R sep := by
  induction X with
  | nil => simp [pySplit]
  | cons c X2 ih =>
      have hc : ¬ c = sep := by
        intro hcc; exact hX (by simp [hcc])
      have h2 : sep ∉ X2 := fun hm => hX (by simp [hm])
      simp only [List.cons_append, pySplit, if_neg hc]
      rw [show X2.append (sep :: R) = X2 ++ sep :: R from rfl, ih h2]

theorem getLastD_irrel {α : Type} (l : List α) (h : l ≠ []) (d d' : α) :
    l.getLastD d = l.getLastD d' := by
  cases l with
  | nil => exact absurd rfl h
  | cons a l2 => rw [List.getLastD_cons, List.getLastD_cons]

theorem pySplit_length_append (b : PyStr) (sep : Char) (hb : sep ∉ b) (a : PyStr) :
    (pySplit (a ++ b) sep).length = (pySplit a sep).length := by
  induction a with
  | nil => simp [pySplit_no_sep b sep hb, pySplit]
  | cons c a2 ih =>
      by_cases hc : c = sep
      · simp [pySplit, hc, ih]
      · simp only [List.cons_append, pySplit, if_neg hc]
        rcases h1 : pySplit (a2 ++ b) sep with _ | ⟨x, t⟩
        · exact absurd h1 (pySplit_ne_nil _ _)
        · rcases h2 : pySplit a2 sep with _ | ⟨x', t'⟩
          · exact absurd h2 (pySplit_ne_nil _ _)
          · have := ih
            rw [h1, h2] at this
            simpa using this

theorem pySplit_getLast_append (b : PyStr) (sep : Char) (hb : sep ∉ b) (a : PyStr) :
    (pySplit (a ++ b) sep).getLastD [] = (pySplit a sep).getLastD [] ++ b := by
  induction a with
  | nil => simp [pySplit_no_sep b sep hb, pySplit]
  | cons c a2 ih =>
      by_cases hc : c = sep
      · simp only [List.cons_append, pySplit, if_pos hc, List.getLastD_cons]
        rw [getLastD_irrel _ (pySplit_ne_nil _ _) _ ([] : PyStr),
            getLastD_irrel _ (pySplit_ne_nil _ _) _ ([] : PyStr)]
        exact ih
      · simp only [List.cons_append, pySplit, if_neg hc]
        rcases h1 : pySplit (a2 ++ b) sep with _ | ⟨x, t⟩
        · exact absurd h1 (pySplit_ne_nil _ _)
        · rcases h2 : pySplit a2 sep with _ | ⟨x', t'⟩
          · exact absurd h2 (pySplit_ne_nil _ _)
          · have hlen : t.length = t'.length := by
              have := pySplit_length_append b sep hb a2
              rw [h1, h2] at this
              simpa using this
            have hih := ih
            rw [h1, h2] at hih
            cases t with
            | nil =>
                cases t' with
                | nil =>
                    simp only [List.getLastD_cons, List.getLastD_nil] at hih ⊢
                    simp [hih]
                | cons y ys => simp at hlen
            | cons z zs =>
                cases t' with
                | nil => simp at hlen
                | cons y ys =>
                    simp only [List.getLastD_cons] at hih ⊢
                    exact hih

/-!
## Claim theorems: the `Repository` constructor (C6)
-/

theorem gitSuffix_normalize (u : PyStr) :
    (pstr ".git").isSuffixOf
      (if (pstr ".git").isSuffixOf u then u else u ++ pstr ".git") = true := by
  by_cases h : (pstr ".git").isSuffixOf u = true
  · simp [h]
  · simp only [h, if_false, Bool.if_false_left]
    exact List.isSuffixOf_iff_suffix.mpr (List.suffix_append _ _)

theorem dropLast4_git (a : PyStr) :
    (a ++ pstr ".git").dropLast.dropLast.dropLast.dropLast = a := by
  have h : a ++ pstr ".git" = (((a ++ ['.']) ++ ['g']) ++ ['i']) ++ ['t'] := by
    have h4 : pstr ".git" = ['.', 'g', 'i', 't'] := rfl
    simp [h4]
  rw [h, List.dropLast_concat, List.dropLast_concat, List.dropLast_concat,
      List.dropLast_concat]

/-- C6 amended: the scenario (adding `https://example.com/foo` with base
directory `/home/u/.tman/`) produces name `foo`, url
`https://example.com/foo.git`, directory `/home/u/.tman/foo`; and in
general the constructor strips trailing slashes from the url and appends
`.git` when absent, derives the name (when not explicitly given) as the
normalized url's last segment minus `.git`, and makes the directory end
with `name` — keeping the directory unchanged whenever it already ends
with `name` (even without a `/` boundary), else appending `/name`. -/
theorem repository_init_spec (url dir : PyStr) (tags : List PyStr) :
    (Repository.init (pstr "https://example.com/foo") (pstr "/home/u/.tman/") none []
        none none none =
      ⟨pstr "foo", pstr "https://example.com/foo.git", [], pstr "git",
       pstr "/home/u/.tman/foo", none, none, none⟩) ∧
    ((pstr ".git").isSuffixOf (Repository.init url dir none tags none none none).url
      = true) ∧
    ((Repository.init url dir none tags none none none).url =
      (if (pstr ".git").isSuffixOf (pyRStrip url '/') then pyRStrip url '/'
       else pyRStrip url '/' ++ pstr ".git")) ∧
    ((Repository.init url dir none tags none none none).name ++ pstr ".git" =
      (pySplit (Repository.init url dir none tags none none none).url '/').getLastD []) ∧
    ((Repository.init url dir none tags none none none).name.isSuffixOf
      (Repository.init url dir none tags none none none).directory = true) ∧
    ((Repository.init url dir none tags none none none).directory =
      (if (Repository.init url dir none tags none none none).name.isSuffixOf dir then dir
       else dir ++ (if (pstr "/").isSuffixOf dir then [] else pstr "/") ++
            (Repository.init url dir none tags none none none).name)) := by
  have hurl : (Repository.init url dir none tags none none none).url =
      (if (pstr ".git").isSuffixOf (pyRStrip url '/') then pyRStrip url '/'
       else pyRStrip url '/' ++ pstr ".git") := rfl
  have hsuf : (pstr ".git").isSuffixOf (Repository.init url dir none tags none none none).url
      = true := by
    rw [hurl]; exact gitSuffix_normalize _
  have hname : (Repository.init url dir none tags none none none).name =
      ((pySplit (Repository.init url dir none tags none none none).url '/').getLastD
        []).dropLast.dropLast.dropLast.dropLast := rfl
  have hderive : (Repository.init url dir none tags none none none).name ++ pstr ".git" =
      (pySplit (Repository.init url dir none tags none none none).url '/').getLastD [] := by
    obtain ⟨a, ha⟩ := List.isSuffixOf_iff_suffix.mp hsuf
    rw [hname, ← ha, pySplit_getLast_append _ _ (by decide) a, dropLast4_git]
  have hdir : (Repository.init url dir none tags none none none).directory =
      (if (Repository.init url dir none tags none none none).name.isSuffixOf dir then dir
       else dir ++ (if (pstr "/").isSuffixOf dir then [] else pstr "/") ++
            (Repository.init url dir none tags none none none).name) := rfl
  have hdirsuf : (Repository.init url dir none tags none none none).name.isSuffixOf
      (Repository.init url dir none tags none none none).directory = true := by
    rw [hdir]
    by_cases h : (Repository.init url dir none tags none none none).name.isSuffixOf dir = true
    · simp [h]
    · simp only [h, if_false, Bool.if_false_left, List.append_assoc]
      exact List.isSuffixOf_iff_suffix.mpr
        (by rw [← List.append_assoc]; exact List.suffix_append _ _)
  exact ⟨rfl, hsuf, hurl, hderive, hdirsuf, hdir⟩

/-- C6 counterexample: adding url `https://example.com/foo` with base
directory `/home/ufoo` keeps the directory `/home/ufoo` (it already ends
with the name `foo`), so the directory does not end with `/foo` — the
constructor does not force a `/name` suffix. -/
theorem repository_init_counterexample :
    (Repository.init (pstr "https://example.com/foo") (pstr "/home/ufoo") none []
        none none none).directory = pstr "/home/ufoo" ∧
    ¬ ((pstr "/foo").isSuffixOf
        (Repository.init (pstr "https://example.com/foo") (pstr "/home/ufoo") none []
          none none none).directory = true) := by
  exact ⟨rfl, by decide⟩

/-!
## Claim theorems: the query engine (C2)
-/

theorem urlCrit_merge (c1 c2 : Criteria) (t : ToolRec)
    (h : ¬(c1.urlActive = true ∧ c2.urlActive = true)) :
    urlCrit (c1.merge c2) t = (urlCrit c1 t && urlCrit c2 t) := by
  rcases hu1 : c1.url with _ | u1 <;> rcases hu2 : c2.url with _ | u2 <;>
    simp_all [Criteria.merge, Criteria.urlActive, urlCrit]

theorem tagsCrit_merge (c1 c2 : Criteria) (t : ToolRec)
    (h : ¬(c1.tagsActive = true ∧ c2.tagsActive = true)) :
    tagsCrit (c1.merge c2) t = (tagsCrit c1 t && tagsCrit c2 t) := by
  have hm : (c1.merge c2).tags = if c1.tagsActive then c1.tags else c2.tags := rfl
  by_cases h1 : c1.tagsActive = true
  · have h2 : ¬ c2.tagsActive = true := fun hx => h ⟨h1, hx⟩
    have h2e : (sanitize_tags c2.tags).isEmpty = true := by
      cases he : (sanitize_tags c2.tags).isEmpty with
      | false => exact absurd (by simp [Criteria.tagsActive, he]) h2
      | true => rfl
    have e2 : tagsCrit c2 t = true := by simp [tagsCrit, h2e]
    have hm1 : (c1.merge c2).tags = c1.tags := by rw [hm, if_pos h1]
    have lhs : tagsCrit (c1.merge c2) t = tagsCrit c1 t := by
      simp only [tagsCrit, hm1]
    rw [lhs, e2, Bool.and_true]
  · have h1e : (sanitize_tags c1.tags).isEmpty = true := by
      cases he : (sanitize_tags c1.tags).isEmpty with
      | false => exact absurd (by simp [Criteria.tagsActive, he]) h1
      | true => rfl
    have e1 : tagsCrit c1 t = true := by simp [tagsCrit, h1e]
    have hm2 : (c1.merge c2).tags = c2.tags := by rw [hm, if_neg h1]
    have lhs : tagsCrit (c1.merge c2) t = tagsCrit c2 t := by
      simp only [tagsCrit, hm2]
    rw [lhs, e1, Bool.true_and]

theorem nameCrit_merge (c1 c2 : Criteria) (f : Bool) (t : ToolRec)
    (h : ¬(c1.nameActive = true ∧ c2.nameActive = true)) :
    nameCrit (c1.merge c2) f t = (nameCrit c1 f t && nameCrit c2 f t) := by
  by_cases h1 : c1.nameActive = true
  · have h2 : ¬ c2.nameActive = true := fun hx => h ⟨h1, hx⟩
    simp only [Criteria.nameActive, Bool.not_eq_true, Bool.not_eq_eq_eq_not,
      Bool.not_false, Bool.not_true] at h1 h2
    simp [nameCrit, Criteria.merge, Criteria.nameActive, h1, h2]
  · simp only [Criteria.nameActive, Bool.not_eq_true, Bool.not_eq_eq_eq_not,
      Bool.not_true] at h1
    simp [nameCrit, Criteria.merge, Criteria.nameActive, h1]

theorem typeCrit_merge (c1 c2 : Criteria) (t : ToolRec)
    (h : ¬(c1.typeActive = true ∧ c2.typeActive = true)) :
    typeCrit (c1.merge c2) t = (typeCrit c1 t && typeCrit c2 t) := by
  by_cases h1 : c1.typeActive = true
  · have h2 : ¬ c2.typeActive = true := fun hx => h ⟨h1, hx⟩
    simp only [Criteria.typeActive, Bool.not_eq_true, Bool.not_eq_eq_eq_not,
      Bool.not_false, Bool.not_true] at h1 h2
    simp [typeCrit, Criteria.merge, Criteria.typeActive, h1, h2]
  · simp only [Criteria.typeActive, Bool.not_eq_true, Bool.not_eq_eq_eq_not,
      Bool.not_true] at h1
    simp [typeCrit, Criteria.merge, Criteria.typeActive, h1]

theorem ludCrit_merge (c1 c2 : Criteria) (t : ToolRec)
    (h : ¬(c1.ludActive = true ∧ c2.ludActive = true)) :
    ludCrit (c1.merge c2) t = (ludCrit c1 t && ludCrit c2 t) := by
  have hm : (c1.merge c2).last_update_date =
      if c1.ludActive then c1.last_update_date else c2.last_update_date := rfl
  by_cases h1 : c1.ludActive = true
  · have h2 : ¬ c2.ludActive = true := fun hx => h ⟨h1, hx⟩
    have e2 : ludCrit c2 t = true := by
      rcases hd2 : c2.last_update_date with _ | d2
      · simp [ludCrit, hd2]
      · have hz : d2 = 0 := by
          by_contra hne
          exact h2 (by simp [Criteria.ludActive, hd2, hne])
        simp [ludCrit, hd2, hz]
    have hm1 : (c1.merge c2).last_update_date = c1.last_update_date := by
      rw [hm, if_pos h1]
    have lhs : ludCrit (c1.merge c2) t = ludCrit c1 t := by
      simp only [ludCrit, hm1]
    rw [lhs, e2, Bool.and_true]
  · have h1f : c1.ludActive = false := by
      rw [Bool.not_eq_true] at h1
      exact h1
    have e1 : ludCrit c1 t = true := by
      rcases hd1 : c1.last_update_date with _ | d1
      · simp [ludCrit, hd1]
      · have hz : d1 = 0 := by
          by_contra hne
          exact h1 (by simp [Criteria.ludActive, hd1, hne])
        simp [ludCrit, hd1, hz]
    have hm2 : (c1.merge c2).last_update_date = c2.last_update_date := by
      rw [hm, if_neg h1]
    have lhs : ludCrit (c1.merge c2) t = ludCrit c2 t := by
      simp only [ludCrit, hm2]
    rw [lhs, e1, Bool.true_and]

theorem check_merge (c1 c2 : Criteria) (f : Bool) (t : ToolRec)
    (h : Criteria.disjoint c1 c2 = true) :
    (c1.merge c2).check f t = (c1.check f t && c2.check f t) := by
  simp only [Criteria.disjoint, Bool.and_eq_true, Bool.not_eq_true',
    Bool.and_eq_false_iff, Bool.not_eq_true] at h
  obtain ⟨⟨⟨⟨hu, ht⟩, hn⟩, hy⟩, hl⟩ := h
  have hu' : ¬(c1.urlActive = true ∧ c2.urlActive = true) := by
    rcases hu with h' | h' <;> simp [h']
  have ht' : ¬(c1.tagsActive = true ∧ c2.tagsActive = true) := by
    rcases ht with h' | h' <;> simp [h']
  have hn' : ¬(c1.nameActive = true ∧ c2.nameActive = true) := by
    rcases hn with h' | h' <;> simp [h']
  have hy' : ¬(c1.typeActive = true ∧ c2.typeActive = true) := by
    rcases hy with h' | h' <;> simp [h']
  have hl' : ¬(c1.ludActive = true ∧ c2.ludActive = true) := by
    rcases hl with h' | h' <;> simp [h']
  simp only [Criteria.check, urlCrit_merge c1 c2 t hu', tagsCrit_merge c1 c2 t ht',
    nameCrit_merge c1 c2 f t hn', typeCrit_merge c1 c2 t hy', ludCrit_merge c1 c2 t hl']
  generalize urlCrit c1 t = a1
  generalize urlCrit c2 t = a2
  generalize tagsCrit c1 t = b1
  generalize tagsCrit c2 t = b2
  generalize nameCrit c1 f t = d1
  generalize nameCrit c2 f t = d2
  generalize typeCrit c1 t = e1
  generalize typeCrit c2 t = e2
  generalize ludCrit c1 t = g1
  generalize ludCrit c2 t = g2
  cases a1 <;> cases a2 <;> cases b1 <;> cases b2 <;> cases d1 <;> cases d2 <;>
    cases e1 <;> cases e2 <;> cases g1 <;> cases g2 <;> rfl

theorem filter_inter (l : List ToolRec) (p q : ToolRec → Bool) :
    l.filter (fun t => p t && q t) =
      (l.filter p).filter (fun t => (l.filter q).any (fun x => decide (x = t))) := by
  rw [List.filter_filter]
  apply List.filter_congr
  intro t ht
  have hmem : (l.filter q).any (fun x => decide (x = t)) = q t := by
    by_cases hq : q t = true
    · rw [hq]
      exact List.any_eq_true.mpr ⟨t, List.mem_filter.mpr ⟨ht, hq⟩, by simp⟩
    · rw [Bool.not_eq_true] at hq
      rw [hq]
      rw [Bool.eq_false_iff]
      intro hany
      obtain ⟨x, hx, hxt⟩ := List.any_eq_true.mp hany
      rw [decide_eq_true_eq] at hxt
      subst hxt
      have := (List.mem_filter.mp hx).2
      rw [hq] at this
      exact Bool.false_ne_true this
  rw [hmem, Bool.and_comm]

/-- C2: the query engine returns exactly the tools (in registry order)
satisfying every supplied criterion: with no criterion supplied it
returns every tool; in general it filters `get_tools()` by the
conjunction of the supplied criteria; and supplying two disjoint
criteria records together returns the intersection (in registry order)
of the two single-record results. -/
theorem find_tool_query_spec (cfg : Config) (f : Bool) :
    (find_tool cfg Criteria.noCrit f = cfg.get_tools) ∧
    (∀ c : Criteria, find_tool cfg c f = (cfg.get_tools).filter (fun t => c.check f t)) ∧
    (∀ c1 c2 : Criteria, Criteria.disjoint c1 c2 = true →
      find_tool cfg (c1.merge c2) f =
        (find_tool cfg c1 f).filter
          (fun t => (find_tool cfg c2 f).any (fun x => decide (x = t)))) := by
  have hfilter : ∀ c : Criteria,
      find_tool cfg c f = (cfg.get_tools).filter (fun t => c.check f t) := by
    intro c
    rw [find_tool, findLoop_eq_filter]
  refine ⟨?_, hfilter, ?_⟩
  · rw [hfilter]
    have : ∀ t, Criteria.noCrit.check f t = true := by
      intro t
      rfl
    simp [this]
  · intro c1 c2 hdis
    rw [hfilter, hfilter, hfilter]
    have : (cfg.get_tools).filter (fun t => (c1.merge c2).check f t) =
        (cfg.get_tools).filter (fun t => c1.check f t && c2.check f t) := by
      apply List.filter_congr
      intro t _
      exact check_merge c1 c2 f t hdis
    rw [this, filter_inter]

/-- Witness for C2: intersecting a url criterion with a tags criterion on
a concrete two-tool registry. -/
theorem find_tool_query_spec_witness :
    find_tool
      ⟨pstr "/h/", false,
       [⟨pstr "a", pstr "https://h/a.git", [pstr "x"], pstr "git", pstr "/r/a",
         none, none, none⟩,
        ⟨pstr "b", pstr "-", [pstr "y"], pstr "local", pstr "/r/b", none, none, none⟩]⟩
      (Criteria.merge ⟨some (pstr "https://h/a"), none, [], [], none⟩
        ⟨none, some (pstr "x"), [], [], none⟩) false =
      (find_tool
        ⟨pstr "/h/", false,
         [⟨pstr "a", pstr "https://h/a.git", [pstr "x"], pstr "git", pstr "/r/a",
           none, none, none⟩,
          ⟨pstr "b", pstr "-", [pstr "y"], pstr "local", pstr "/r/b", none, none, none⟩]⟩
        ⟨some (pstr "https://h/a"), none, [], [], none⟩ false).filter
        (fun t =>
          (find_tool
            ⟨pstr "/h/", false,
             [⟨pstr "a", pstr "https://h/a.git", [pstr "x"], pstr "git", pstr "/r/a",
               none, none, none⟩,
              ⟨pstr "b", pstr "-", [pstr "y"], pstr "local", pstr "/r/b", none, none,
               none⟩]⟩
            ⟨none, some (pstr "x"), [], [], none⟩ false).any (fun x => decide (x = t))) :=
  (find_tool_query_spec _ false).2.2 _ _ (by decide)

/-!
## Generic lemmas for the codec proof
-/

theorem dropWhile_length_le (p : Char → Bool) (l : PyStr) :
    (l.dropWhile p).length ≤ l.length := by
  induction l with
  | nil => simp
  | cons c cs ih =>
      rw [List.dropWhile_cons]
      by_cases h : p c = true
      · rw [if_pos h]
        simp only [List.length_cons]
        omega
      · rw [if_neg (by simp [h])]

theorem ws_head_false (p : Char → Bool) (c : Char) (cs : PyStr)
    (hl : (c :: cs).dropWhile p = c :: cs) : p c = false := by
  by_cases hw : p c = true
  · rw [List.dropWhile_cons, if_pos hw] at hl
    have h1 := dropWhile_length_le p cs
    have h2 := congrArg List.length hl
    simp at h2
    omega
  · rw [Bool.not_eq_true] at hw
    exact hw

theorem dropWhile_append_left (p : Char → Bool) (l r : PyStr) (hne : l ≠ [])
    (hl : l.dropWhile p = l) : (l ++ r).dropWhile p = l ++ r := by
  cases l with
  | nil => exact absurd rfl hne
  | cons c cs =>
      have hc := ws_head_false p c cs hl
      rw [List.cons_append, List.dropWhile_cons, if_neg (by simp [hc])]

theorem pyStripWS_id (s : PyStr) (h1 : s.dropWhile pyIsSpace = s)
    (h2 : s.reverse.dropWhile pyIsSpace = s.reverse) : pyStripWS s = s := by
  rw [pyStripWS, h1, h2, List.reverse_reverse]

theorem isPrefixOf_append_self (p r : PyStr) : p.isPrefixOf (p ++ r) = true :=
  List.isPrefixOf_iff_prefix.mpr (List.prefix_append _ _)

theorem isPrefixOf_of_take (p T : PyStr) (h : T.take p.length = p) :
    p.isPrefixOf T = true :=
  List.isPrefixOf_iff_prefix.mpr (List.prefix_iff_eq_take.mpr h.symm)

theorem pyFind_pos (s p : PyStr) (h : p.isPrefixOf s = true) : pyFind s p = some 0 := by
  unfold pyFind
  rw [h]
  cases s <;> rfl

theorem pyFind_neg_cons (c : Char) (s2 p : PyStr) (h : p.isPrefixOf (c :: s2) = false) :
    pyFind (c :: s2) p = (pyFind s2 p).map (· + 1) := by
  have hstep : pyFind (c :: s2) p =
      if p.isPrefixOf (c :: s2) then some 0 else (pyFind s2 p).map (· + 1) := rfl
  rw [hstep, h]
  simp

theorem no_marker_prefix (p T L : PyStr) (hp : p.take 6 = pstr "tags-[")
    (hT : T.take 6 = pstr "tags-[") (hL : '[' ∉ L) (hne : L ≠ []) :
    p.isPrefixOf (L ++ T) = false := by
  by_contra hcon
  rw [Bool.not_eq_false] at hcon
  have pref := List.isPrefixOf_iff_prefix.mp hcon
  have hp6 : 6 ≤ p.length := by
    have hlen := congrArg List.length hp
    rw [List.length_take] at hlen
    have h6 : (pstr "tags-[").length = 6 := rfl
    rw [h6] at hlen
    omega
  have big6 : (L ++ T).take 6 = pstr "tags-[" := by
    have hpeq : p = (L ++ T).take p.length := List.prefix_iff_eq_take.mp pref
    calc (L ++ T).take 6 = ((L ++ T).take p.length).take 6 := by
            rw [List.take_take, min_eq_left hp6]
      _ = p.take 6 := by rw [← hpeq]
      _ = pstr "tags-[" := hp
  by_cases hk : 6 ≤ L.length
  · have hLt : (L ++ T).take 6 = L.take 6 := List.take_append_of_le_length hk
    rw [hLt] at big6
    have : '[' ∈ L.take 6 := by rw [big6]; decide
    exact hL (List.mem_of_mem_take this)
  · have hk1 : 1 ≤ L.length := by
      cases L with
      | nil => exact absurd rfl hne
      | cons a b => simp
    have hsplit : (L ++ T).take 6 = L ++ T.take (6 - L.length) := by
      rw [List.take_append_eq_append_take, List.take_of_length_le (by omega)]
    have hTk : T.take (6 - L.length) = (pstr "tags-[").take (6 - L.length) := by
      rw [← hT, List.take_take, min_eq_left (by omega)]
    rw [hsplit, hTk] at big6
    have hdrop : (pstr "tags-[").drop L.length = (pstr "tags-[").take (6 - L.length) := by
      conv_lhs => rw [← big6]
      rw [List.drop_left]
    have hcases : L.length = 1 ∨ L.length = 2 ∨ L.length = 3 ∨ L.length = 4 ∨
        L.length = 5 := by omega
    rcases hcases with h | h | h | h | h <;> rw [h] at hdrop <;>
      exact absurd hdrop (by decide)

theorem pyFind_marker (L T : PyStr) (hL : '[' ∉ L) (hT : T.take 6 = pstr "tags-[") :
    pyFind (L ++ T) (pstr "tags-[") = some L.length := by
  induction L with
  | nil =>
      have hpre : (pstr "tags-[").isPrefixOf T = true := isPrefixOf_of_take _ _ (by exact hT)
      simpa using pyFind_pos T _ hpre
  | cons c L2 ih =>
      have hnp : (pstr "tags-[").isPrefixOf ((c :: L2) ++ T) = false :=
        no_marker_prefix _ _ _ (by decide) hT hL (by simp)
      have hL2 : '[' ∉ L2 := fun hm => hL (by simp [hm])
      rw [List.cons_append] at hnp
      rw [List.cons_append, pyFind_neg_cons _ _ _ hnp, ih hL2]
      rfl

theorem lastIdx_not_mem (B : PyStr) (c : Char) (h : c ∉ B) : lastIdx B c = none := by
  induction B with
  | nil => rfl
  | cons x xs ih =>
      have hx : ¬ x = c := fun he => h (by simp [he])
      have hxs : c ∉ xs := fun hm => h (by simp [hm])
      rw [lastIdx, ih hxs, if_neg (by simpa using hx)]

theorem lastIdx_append_concat (X B : PyStr) (c : Char) (hB : c ∉ B) :
    lastIdx (X ++ c :: B) c = some X.length := by
  induction X with
  | nil =>
      rw [List.nil_append, lastIdx, lastIdx_not_mem B c hB, if_pos rfl]
      rfl
  | cons x X2 ih =>
      rw [List.cons_append, lastIdx, ih]
      rfl

theorem pyReplaceAux_fuel (p r : PyStr) :
    ∀ f1 : Nat, ∀ f2 : Nat, ∀ s : PyStr, s.length ≤ f1 → s.length ≤ f2 →
      pyReplaceAux p r f1 s = pyReplaceAux p r f2 s := by
  intro f1
  induction f1 with
  | zero =>
      intro f2 s h1 _
      have hs : s = [] := List.length_eq_zero.mp (by omega)
      subst hs
      cases f2 with
      | zero => rfl
      | succ g =>
          rw [pyReplaceAux, pyReplaceAux]
          have : ¬(p ≠ [] ∧ p.isPrefixOf ([] : PyStr) = true) := by
            rintro ⟨hne, hpre⟩
            cases p with
            | nil => exact hne rfl
            | cons a b => simp [List.isPrefixOf] at hpre
          rw [if_neg this]
  | succ a ih =>
      intro f2 s h1 h2
      cases f2 with
      | zero =>
          have hs : s = [] := List.length_eq_zero.mp (by omega)
          subst hs
          rw [pyReplaceAux, pyReplaceAux]
          have : ¬(p ≠ [] ∧ p.isPrefixOf ([] : PyStr) = true) := by
            rintro ⟨hne, hpre⟩
            cases p with
            | nil => exact hne rfl
            | cons x b => simp [List.isPrefixOf] at hpre
          rw [if_neg this]
      | succ b =>
          simp only [pyReplaceAux]
          by_cases hc : p ≠ [] ∧ p.isPrefixOf s = true
          · rw [if_pos hc, if_pos hc]
            have hp1 : 1 ≤ p.length := by
              cases p with
              | nil => exact absurd rfl hc.1
              | cons x q => simp
            have hd : (s.drop p.length).length ≤ a := by
              simp only [List.length_drop]
              omega
            have hd2 : (s.drop p.length).length ≤ b := by
              simp only [List.length_drop]
              omega
            rw [ih b _ hd hd2]
          · rw [if_neg hc, if_neg hc]
            cases s with
            | nil => rfl
            | cons x s2 =>
                simp only [List.length_cons] at h1 h2
                show x :: pyReplaceAux p r a s2 = x :: pyReplaceAux p r b s2
                rw [ih b s2 (by omega) (by omega)]

theorem pyReplace_pos (s p r : PyStr) (hp : p ≠ []) (hpre : p.isPrefixOf s = true) :
    pyReplace s p r = r ++ pyReplace (s.drop p.length) p r := by
  cases s with
  | nil =>
      cases p with
      | nil => exact absurd rfl hp
      | cons a b => simp [List.isPrefixOf] at hpre
  | cons c s2 =>
      rw [pyReplace, List.length_cons, pyReplaceAux, if_pos ⟨hp, hpre⟩]
      congr 1
      have hp1 : 1 ≤ p.length := by
        cases p with
        | nil => exact absurd rfl hp
        | cons x q => simp
      apply pyReplaceAux_fuel
      · simp only [List.length_drop, List.length_cons]
        omega
      · exact le_refl _

theorem pyReplace_neg_cons (c : Char) (s2 p r : PyStr)
    (h : ¬(p ≠ [] ∧ p.isPrefixOf (c :: s2) = true)) :
    pyReplace (c :: s2) p r = c :: pyReplace s2 p r := by
  rw [pyReplace, List.length_cons, pyReplaceAux, if_neg h]
  rfl

theorem pyReplace_skip_left (p r : PyStr) (A tail : PyStr)
    (hA : ∀ i, i < A.length → p.isPrefixOf ((A.drop i) ++ tail) = false) :
    pyReplace (A ++ tail) p r = A ++ pyReplace tail p r := by
  induction A with
  | nil => simp
  | cons c A2 ih =>
      have h0 : p.isPrefixOf ((c :: A2) ++ tail) = false := by
        have := hA 0 (by simp)
        simpa using this
      have hstep : pyReplace ((c :: A2) ++ tail) p r =
          c :: pyReplace (A2 ++ tail) p r := by
        rw [List.cons_append]
        apply pyReplace_neg_cons
        rintro ⟨_, hpre⟩
        rw [← List.cons_append] at hpre
        rw [h0] at hpre
        exact Bool.false_ne_true hpre
      rw [hstep, ih, List.cons_append]
      intro i hi
      have := hA (i + 1) (by simp; omega)
      simpa using this

theorem pyReplace_no_occ (p r B : PyStr) (hB : ∀ i, p.isPrefixOf (B.drop i) = false) :
    pyReplace B p r = B := by
  induction B with
  | nil => rfl
  | cons c B2 ih =>
      have h0 := hB 0
      simp only [List.drop_zero] at h0
      have hstep : pyReplace (c :: B2) p r = c :: pyReplace B2 p r := by
        apply pyReplace_neg_cons
        rintro ⟨_, hpre⟩
        rw [h0] at hpre
        exact Bool.false_ne_true hpre
      rw [hstep, ih]
      intro i
      have := hB (i + 1)
      simpa using this

theorem no_pref_of_lbrack (p B : PyStr) (hp : '[' ∈ p) (hB : '[' ∉ B) :
    ∀ i, p.isPrefixOf (B.drop i) = false := by
  intro i
  by_contra hcon
  rw [Bool.not_eq_false] at hcon
  have pref := List.isPrefixOf_iff_prefix.mp hcon
  have : '[' ∈ B.drop i := pref.subset hp
  exact hB (List.mem_of_mem_drop this)

theorem splitOnce_append (K V : PyStr) (sep : Char) (hK : sep ∉ K) :
    splitOnce (K ++ sep :: V) sep = some (K, V) := by
  induction K with
  | nil => simp [splitOnce]
  | cons c K2 ih =>
      have hc : ¬ c = sep := fun he => hK (by simp [he])
      rw [List.cons_append, splitOnce, if_neg hc, ih (fun hm => hK (by simp [hm]))]
      rfl

/-!
## Well-formedness for the round-trip (C1)

The codec garbles fields outside a safe region: a comma or bracket in a
field collides with the line format, a control or non-ASCII character in
a tag can be escaped by Python `repr` and decode changed, an empty or
quote/backslash-bearing tag breaks the quoted token shape, and trailing
Python whitespace on the directory is removed by the importer's
`line.strip()` (the counterexample below exhibits the comma case).  The
round-trip theorem is proved for registries whose fields are printable
ASCII free of these delimiters.
-/

def safeChar (c : Char) : Bool :=
  32 ≤ c.toNat && c.toNat ≤ 126 && !(c = ',' || c = '[' || c = ']')

def safeField (s : PyStr) : Bool := s.all safeChar

def safeTag (s : PyStr) : Bool :=
  !s.isEmpty && s.all (fun c => safeChar c && !(c = squote || c = dquote || c = bslash))

def trailOK (s : PyStr) : Bool := s.reverse.dropWhile pyIsSpace == s.reverse

/-- A well-formed normalized tool: delimiter-free fields plus the shape
invariants that `get_tools` guarantees for each variant. -/
def wfTool (t : ToolRec) : Bool :=
  safeField t.name && !t.name.isEmpty && safeField t.url && safeField t.type &&
  safeField t.directory && trailOK t.directory && t.tags.all safeTag &&
  (if t.url = pstr "-" then
     t.type = pstr "local" && t.directory = pyRStrip t.directory '/' &&
     t.name = (pySplit t.directory '/').getLastD []
   else
     (pstr ".git").isSuffixOf t.url && t.type = pstr "git" &&
     t.name.isSuffixOf t.directory)

def wfConfig (cfg : Config) : Bool :=
  safeField cfg.default_installation_directory && (cfg.get_tools).all wfTool

theorem safeField_not_mem (s : PyStr) (h : safeField s = true) :
    ',' ∉ s ∧ '[' ∉ s ∧ ']' ∉ s := by
  rw [safeField, List.all_eq_true] at h
  refine ⟨fun hm => ?_, fun hm => ?_, fun hm => ?_⟩ <;>
    exact absurd (h _ hm) (by decide)

theorem safeTag_props (s : PyStr) (h : safeTag s = true) :
    s ≠ [] ∧ ',' ∉ s ∧ '[' ∉ s ∧ ']' ∉ s ∧ squote ∉ s := by
  rw [safeTag, Bool.and_eq_true, List.all_eq_true] at h
  obtain ⟨hne, hall⟩ := h
  refine ⟨by simpa using hne, fun hm => ?_, fun hm => ?_, fun hm => ?_, fun hm => ?_⟩ <;>
    exact absurd (hall _ hm) (by decide)

/-!
## Parsing the exported tag segment back
-/

theorem safeTag_plain (s : PyStr) (h : safeTag s = true) :
    ∀ c ∈ s, reprEscapeChar squote c = [c] := by
  rw [safeTag, Bool.and_eq_true, List.all_eq_true] at h
  intro c hc
  have hcp : (safeChar c && !(c = squote || c = dquote || c = bslash)) = true := h.2 c hc
  rw [Bool.and_eq_true, safeChar, Bool.and_eq_true, Bool.and_eq_true] at hcp
  obtain ⟨⟨⟨hlo, hhi⟩, -⟩, hq⟩ := hcp
  have hlo2 : 32 ≤ c.toNat := by simpa using hlo
  have hhi2 : c.toNat ≤ 126 := by simpa using hhi
  have hq2 : (¬c = squote ∧ ¬c = dquote) ∧ ¬c = bslash := by simpa using hq
  obtain ⟨⟨hsq, -⟩, hbs⟩ := hq2
  have hlow : ∀ d : Char, d.toNat < 32 → c ≠ d := by
    intro d hd he
    rw [he] at hlo2
    omega
  rw [reprEscapeChar, if_neg (by rintro (h1 | h1) <;> [exact hsq h1; exact hbs h1]),
    if_neg (hlow tabChar (by decide)), if_neg (hlow nlChar (by decide)),
    if_neg (hlow crChar (by decide)), if_neg (by omega)]

theorem reprChars_plain (q : Char) (s : PyStr) (h : ∀ c ∈ s, reprEscapeChar q c = [c]) :
    reprChars q s = s := by
  induction s with
  | nil => rfl
  | cons c cs ih =>
      have hstep : reprChars q (c :: cs) = reprEscapeChar q c ++ reprChars q cs := rfl
      rw [hstep, h c (List.mem_cons_self c cs),
        ih (fun x hx => h x (List.mem_cons_of_mem c hx))]
      rfl

theorem pyReprStr_safe (tg : PyStr) (h : safeTag tg = true) :
    pyReprStr tg = squote :: tg ++ [squote] := by
  obtain ⟨-, -, -, -, hq⟩ := safeTag_props tg h
  have hc : tg.contains squote = false := by
    by_contra hcc
    rw [Bool.not_eq_false] at hcc
    have : squote ∈ tg := by simpa using hcc
    exact hq this
  have hqc : reprQuote tg = squote := by
    rw [reprQuote, hc]
    rfl
  rw [pyReprStr, hqc, reprChars_plain squote tg (safeTag_plain tg h)]

theorem pyStripWS_quoted (X : PyStr) :
    pyStripWS (squote :: X ++ [squote]) = squote :: X ++ [squote] := by
  apply pyStripWS_id
  · rw [List.cons_append, List.dropWhile_cons, if_neg (by decide)]
  · have hrev : (squote :: X ++ [squote]).reverse = squote :: (X.reverse ++ [squote]) := by
      simp
    rw [hrev, List.dropWhile_cons, if_neg (by decide)]

theorem pyStripWS_space_quoted (X : PyStr) :
    pyStripWS (' ' :: (squote :: X ++ [squote])) = squote :: X ++ [squote] := by
  rw [pyStripWS]
  have h1 : (' ' :: (squote :: X ++ [squote])).dropWhile pyIsSpace =
      squote :: X ++ [squote] := by
    rw [List.dropWhile_cons, if_pos (by decide), List.cons_append, List.dropWhile_cons,
      if_neg (by decide)]
  rw [h1]
  have hrev : (squote :: X ++ [squote]).reverse = squote :: (X.reverse ++ [squote]) := by
    simp
  rw [hrev, List.dropWhile_cons, if_neg (by decide), ← hrev, List.reverse_reverse]

theorem token_strip (tg : PyStr) :
    ((pyStripWS (squote :: tg ++ [squote])).drop 1).dropLast = tg := by
  rw [pyStripWS_quoted, List.cons_append, List.drop_one, List.tail_cons,
    List.dropLast_concat]

theorem token_strip_space (tg : PyStr) :
    ((pyStripWS (' ' :: (squote :: tg ++ [squote]))).drop 1).dropLast = tg := by
  rw [pyStripWS_space_quoted, List.cons_append, List.drop_one, List.tail_cons,
    List.dropLast_concat]

theorem comma_not_in_quoted (tg : PyStr) (hc : ',' ∉ tg) :
    ',' ∉ squote :: tg ++ [squote] := by
  intro hm
  rcases List.mem_cons.mp hm with h | h
  · exact absurd h (by decide)
  · rcases List.mem_append.mp h with h2 | h2
    · exact hc h2
    · rw [List.mem_singleton] at h2
      exact absurd h2 (by decide)

theorem reprBody_split (tg : PyStr) (rest : List PyStr)
    (htg : safeTag tg = true) (hrest : rest.all safeTag = true) :
    pySplit (reprBody (tg :: rest)) ',' =
      (squote :: tg ++ [squote]) ::
        rest.map (fun x => ' ' :: (squote :: x ++ [squote])) := by
  induction rest generalizing tg with
  | nil =>
      obtain ⟨_, hc, _, _, _⟩ := safeTag_props tg htg
      rw [reprBody, pyReprStr_safe tg htg]
      rw [pySplit_no_sep _ _ (comma_not_in_quoted tg hc)]
      rfl
  | cons r rs ih =>
      obtain ⟨_, hc, _, _, _⟩ := safeTag_props tg htg
      have hr : safeTag r = true := by
        rw [List.all_eq_true] at hrest
        exact hrest r (by simp)
      have hrs : rs.all safeTag = true := by
        rw [List.all_eq_true] at hrest ⊢
        intro x hx
        exact hrest x (by simp [hx])
      have hbody : reprBody (tg :: r :: rs) =
          pyReprStr tg ++ ',' :: ' ' :: reprBody (r :: rs) := rfl
      rw [hbody, pyReprStr_safe tg htg]
      rw [pySplit_append_sep _ _ _ (comma_not_in_quoted tg hc)]
      congr 1
      have hsp : pySplit (' ' :: reprBody (r :: rs)) ',' =
          match pySplit (reprBody (r :: rs)) ',' with
          | h :: t => (' ' :: h) :: t
          | [] => [[' ']] := by
        rw [pySplit, if_neg (by decide)]
      rw [hsp, ih r hr hrs]
      rfl

theorem tags_parse_roundtrip (tags : List PyStr) (h : tags.all safeTag = true) :
    ((pySplit (reprBody tags) ',').map
      (fun k => ((pyStripWS k).drop 1).dropLast)).filter (fun t => t ≠ []) = tags := by
  cases tags with
  | nil => rfl
  | cons tg rest =>
      have htg : safeTag tg = true := by
        rw [List.all_eq_true] at h
        exact h tg (by simp)
      have hrest : rest.all safeTag = true := by
        rw [List.all_eq_true] at h ⊢
        intro x hx
        exact h x (by simp [hx])
      rw [reprBody_split tg rest htg hrest]
      rw [List.map_cons, token_strip, List.map_map]
      have hmap : ((fun k => ((pyStripWS k).drop 1).dropLast) ∘
          (fun x : PyStr => ' ' :: (squote :: x ++ [squote]))) =
          fun x : PyStr => x := by
        funext x
        exact token_strip_space x
      rw [hmap]
      have hid : List.map (fun x : PyStr => x) rest = rest := List.map_id' rest
      rw [hid, List.filter_cons]
      have hne : tg ≠ [] := (safeTag_props tg htg).1
      rw [if_pos (by simpa using hne)]
      congr 1
      rw [List.filter_eq_self]
      intro x hx
      have hxs : safeTag x = true := by
        rw [List.all_eq_true] at hrest
        exact hrest x hx
      simpa using (safeTag_props x hxs).1

theorem take6_marker (X : PyStr) : (pstr "tags-[" ++ X).take 6 = pstr "tags-[" := by
  have h := List.take_left (pstr "tags-[") X
  exact h

theorem reprBody_no_brack (tags : List PyStr) (h : tags.all safeTag = true) :
    '[' ∉ reprBody tags ∧ ']' ∉ reprBody tags := by
  induction tags with
  | nil => simp [reprBody]
  | cons tg rest ih =>
      have htg : safeTag tg = true := by
        rw [List.all_eq_true] at h
        exact h tg (by simp)
      have hrest : rest.all safeTag = true := by
        rw [List.all_eq_true] at h ⊢
        intro x hx
        exact h x (by simp [hx])
      obtain ⟨_, _, hlb, hrb, -⟩ := safeTag_props tg htg
      have hquoted : ∀ c : Char, c ∈ squote :: tg ++ [squote] → c = squote ∨ c ∈ tg := by
        intro c hc
        rcases List.mem_cons.mp hc with h1 | h1
        · exact Or.inl h1
        · rcases List.mem_append.mp h1 with h2 | h2
          · exact Or.inr h2
          · rw [List.mem_singleton] at h2
            exact Or.inl h2
      cases rest with
      | nil =>
          have hb : reprBody [tg] = squote :: tg ++ [squote] := by
            rw [reprBody, pyReprStr_safe tg htg]
          rw [hb]
          constructor
          · intro hm
            rcases hquoted _ hm with h1 | h1
            · exact absurd h1 (by decide)
            · exact hlb h1
          · intro hm
            rcases hquoted _ hm with h1 | h1
            · exact absurd h1 (by decide)
            · exact hrb h1
      | cons r rs =>
          have hb : reprBody (tg :: r :: rs) =
              pyReprStr tg ++ ',' :: ' ' :: reprBody (r :: rs) := rfl
          rw [hb, pyReprStr_safe tg htg]
          obtain ⟨ihl, ihr⟩ := ih hrest
          constructor
          · intro hm
            rcases List.mem_append.mp hm with h1 | h1
            · rcases hquoted _ h1 with h2 | h2
              · exact absurd h2 (by decide)
              · exact hlb h2
            · rcases List.mem_cons.mp h1 with h2 | h2
              · exact absurd h2 (by decide)
              · rcases List.mem_cons.mp h2 with h3 | h3
                · exact absurd h3 (by decide)
                · exact ihl h3
          · intro hm
            rcases List.mem_append.mp hm with h1 | h1
            · rcases hquoted _ h1 with h2 | h2
              · exact absurd h2 (by decide)
              · exact hrb h2
            · rcases List.mem_cons.mp h1 with h2 | h2
              · exact absurd h2 (by decide)
              · rcases List.mem_cons.mp h2 with h3 | h3
                · exact absurd h3 (by decide)
                · exact ihr h3

theorem remove_tags_encoded (A B : PyStr) (tags : List PyStr)
    (hA : '[' ∉ A) (hBl : '[' ∉ B) (hBr : ']' ∉ B)
    (htags : tags.all safeTag = true) :
    remove_tags (A ++ (((pstr "tags-[" ++ reprBody tags) ++ [']']) ++ B)) =
      some (A ++ B, tags) := by
  obtain ⟨hbl, hbr⟩ := reprBody_no_brack tags htags
  have hM0len : 6 ≤ (pstr "tags-[" ++ reprBody tags).length := by
    rw [List.length_append]
    have h6 : (pstr "tags-[").length = 6 := rfl
    omega
  have hT6 : ((((pstr "tags-[" ++ reprBody tags) ++ [']']) ++ B)).take 6 =
      pstr "tags-[" := by
    rw [List.append_assoc, List.append_assoc, take6_marker]
  have hfind : pyFind (A ++ (((pstr "tags-[" ++ reprBody tags) ++ [']']) ++ B))
      (pstr "tags-[") = some A.length := pyFind_marker A _ hA hT6
  have hdropA : (A ++ (((pstr "tags-[" ++ reprBody tags) ++ [']']) ++ B)).drop A.length =
      ((pstr "tags-[" ++ reprBody tags) ++ [']']) ++ B := List.drop_left _ _
  have hlil : lastIdx (((pstr "tags-[" ++ reprBody tags) ++ [']']) ++ B) ']' =
      some (pstr "tags-[" ++ reprBody tags).length := by
    rw [List.append_assoc]
    have hcons : ([']'] : PyStr) ++ B = ']' :: B := rfl
    rw [hcons]
    exact lastIdx_append_concat _ _ _ hBr
  have hlast : lastIdxFrom (A ++ (((pstr "tags-[" ++ reprBody tags) ++ [']']) ++ B))
      A.length ']' = some ((pstr "tags-[" ++ reprBody tags).length + A.length) := by
    rw [lastIdxFrom, hdropA, hlil]
    rfl
  have hslice : pySlice (A ++ (((pstr "tags-[" ++ reprBody tags) ++ [']']) ++ B))
      A.length ((pstr "tags-[" ++ reprBody tags).length + A.length + 1) =
      (pstr "tags-[" ++ reprBody tags) ++ [']'] := by
    rw [pySlice, hdropA]
    have harith : (pstr "tags-[" ++ reprBody tags).length + A.length + 1 - A.length =
        ((pstr "tags-[" ++ reprBody tags) ++ [']']).length := by
      simp [List.length_append]
      omega
    rw [harith, List.take_left]
  have hMtake6 : ((pstr "tags-[" ++ reprBody tags) ++ [']']).take 6 = pstr "tags-[" := by
    rw [List.append_assoc, take6_marker]
  have hAocc : ∀ i, i < A.length →
      (((pstr "tags-[" ++ reprBody tags) ++ [']']).isPrefixOf
        (A.drop i ++ (((pstr "tags-[" ++ reprBody tags) ++ [']']) ++ B))) = false := by
    intro i hi
    apply no_marker_prefix _ _ _ hMtake6 hT6
    · intro hm
      exact hA (List.mem_of_mem_drop hm)
    · intro heq
      have hlen := congrArg List.length heq
      simp only [List.length_drop, List.length_nil] at hlen
      omega
  have hrepl : pyReplace (A ++ (((pstr "tags-[" ++ reprBody tags) ++ [']']) ++ B))
      ((pstr "tags-[" ++ reprBody tags) ++ [']']) [] = A ++ B := by
    rw [pyReplace_skip_left _ _ A _ hAocc]
    rw [pyReplace_pos _ _ _ (by simp) (isPrefixOf_append_self _ _), List.drop_left]
    rw [pyReplace_no_occ _ _ _ (no_pref_of_lbrack _ B
      (List.mem_append_left _ (List.mem_append_left _ (by decide))) hBl)]
    simp
  have hso : splitOnce ((pstr "tags-[" ++ reprBody tags) ++ [']']) '-' =
      some (pstr "tags", '[' :: (reprBody tags ++ [']'])) := by
    have hre : (pstr "tags-[" ++ reprBody tags) ++ [']'] =
        pstr "tags" ++ '-' :: ('[' :: (reprBody tags ++ [']'])) := by
      simp [pstr]
    rw [hre]
    exact splitOnce_append _ _ _ (by decide)
  have hinner : (('[' :: (reprBody tags ++ [']'])).drop 1).dropLast = reprBody tags := by
    rw [List.drop_one, List.tail_cons, List.dropLast_concat]
  simp only [remove_tags, hfind, hlast, hslice, hrepl, hso, hinner,
    tags_parse_roundtrip tags htags]

theorem buildDict_five (N U Y D : PyStr) :
    buildDict none
      [['n', 'a', 'm', 'e', '-'] ++ N, ['u', 'r', 'l', '-'] ++ U, [],
       ['t', 'y', 'p', 'e', '-'] ++ Y,
       ['d', 'i', 'r', 'e', 'c', 't', 'o', 'r', 'y', '-'] ++ D] [] =
      some (some [(['n', 'a', 'm', 'e'], N), (['u', 'r', 'l'], U), (['t', 'y', 'p', 'e'], Y),
        (['d', 'i', 'r', 'e', 'c', 't', 'o', 'r', 'y'], D)]) := by
  simp [buildDict, splitOnce, dictInsert]

theorem rstrip_git (u : PyStr) (h : (pstr ".git").isSuffixOf u = true) :
    pyRStrip u '/' = u := by
  obtain ⟨a, ha⟩ := List.isSuffixOf_iff_suffix.mp h
  subst ha
  rw [pyRStrip, List.reverse_append]
  have hg : (pstr ".git").reverse = ['t', 'i', 'g', '.'] := rfl
  rw [hg, dropWhile_append_left _ _ _ (by simp) (by decide), ← hg, ← List.reverse_append,
    List.reverse_reverse]

theorem encode_line_strip (t : ToolRec) (hTrail : trailOK t.directory = true) :
    pyStripWS (encodeToolLine t) = encodeToolLine t := by
  apply pyStripWS_id
  · have hfront : encodeToolLine t = pstr "name-" ++ (t.name ++ (pstr ",url-" ++ (t.url ++
        (pstr ",tags-" ++ (pyReprList t.tags ++ (pstr ",type-" ++ (t.type ++
          (pstr ",directory-" ++ t.directory)))))))) := by
      simp [encodeToolLine, List.append_assoc]
    rw [hfront]
    exact dropWhile_append_left _ _ _ (by decide) (by decide)
  · have hsplit : encodeToolLine t =
        (pstr "name-" ++ t.name ++ pstr ",url-" ++ t.url ++ pstr ",tags-" ++
          pyReprList t.tags ++ pstr ",type-" ++ t.type ++ pstr ",directory-") ++
          t.directory := rfl
    rw [hsplit, List.reverse_append]
    by_cases hD : t.directory = []
    · rw [hD]
      simp only [List.reverse_nil, List.nil_append]
      have hsplit2 : pstr "name-" ++ t.name ++ pstr ",url-" ++ t.url ++ pstr ",tags-" ++
          pyReprList t.tags ++ pstr ",type-" ++ t.type ++ pstr ",directory-" =
          (pstr "name-" ++ t.name ++ pstr ",url-" ++ t.url ++ pstr ",tags-" ++
            pyReprList t.tags ++ pstr ",type-" ++ t.type) ++ pstr ",directory-" := rfl
      rw [hsplit2, List.reverse_append]
      exact dropWhile_append_left _ _ _ (by decide) (by decide)
    · have hD2 : t.directory.reverse.dropWhile pyIsSpace = t.directory.reverse := by
        rw [trailOK] at hTrail
        exact eq_of_beq hTrail
      exact dropWhile_append_left _ _ _ (by simpa using hD) hD2

/-- Decoding the encoded line of a well-formed tool reproduces its five
codec fields; the decoded record carries the import-time `add_date` and
`None` install/update dates. -/
theorem decodeToolLine_encoded (now : Nat) (t : ToolRec) (h : wfTool t = true) :
    decodeToolLine now none none (encodeToolLine t) =
      some (some ⟨t.name, t.url, t.tags, t.type, t.directory, some now, none, none⟩) := by
  rw [wfTool] at h
  simp only [Bool.and_eq_true] at h
  obtain ⟨⟨⟨⟨⟨⟨⟨hN, hNne⟩, hU⟩, hY⟩, hD⟩, hTr⟩, hTags⟩, hshape⟩ := h
  have hNne2 : t.name ≠ [] := by simpa using hNne
  have hstrip := encode_line_strip t hTr
  obtain ⟨hNc, hNlb, hNrb⟩ := safeField_not_mem _ hN
  obtain ⟨hUc, hUlb, hUrb⟩ := safeField_not_mem _ hU
  obtain ⟨hYc, hYlb, hYrb⟩ := safeField_not_mem _ hY
  obtain ⟨hDc, hDlb, hDrb⟩ := safeField_not_mem _ hD
  have p1 : pstr "name-" = ['n', 'a', 'm', 'e', '-'] := rfl
  have p2 : pstr ",url-" = [',', 'u', 'r', 'l', '-'] := rfl
  have p3 : pstr ",tags-" = [',', 't', 'a', 'g', 's', '-'] := rfl
  have p4 : pstr "tags-[" = ['t', 'a', 'g', 's', '-', '['] := rfl
  have p5 : pstr ",type-" = [',', 't', 'y', 'p', 'e', '-'] := rfl
  have p6 : pstr ",directory-" = [',', 'd', 'i', 'r', 'e', 'c', 't', 'o', 'r', 'y', '-'] := rfl
  have p7 : pstr "type-" = ['t', 'y', 'p', 'e', '-'] := rfl
  have p8 : pstr "directory-" = ['d', 'i', 'r', 'e', 'c', 't', 'o', 'r', 'y', '-'] := rfl
  have hdec : encodeToolLine t =
      (pstr "name-" ++ t.name ++ pstr ",url-" ++ t.url ++ [',']) ++
        (((pstr "tags-[" ++ reprBody t.tags) ++ [']']) ++
          ([','] ++ pstr "type-" ++ t.type ++ [','] ++ pstr "directory-" ++ t.directory)) := by
    simp [encodeToolLine, pyReprList, p1, p2, p3, p4, p5, p6, p7, p8, List.append_assoc]
  have hAlb : '[' ∉ pstr "name-" ++ t.name ++ pstr ",url-" ++ t.url ++ [','] := by
    intro hm
    simp only [List.mem_append, List.mem_singleton] at hm
    rcases hm with ((((h1 | h1) | h1) | h1) | h1)
    · revert h1; decide
    · exact hNlb h1
    · revert h1; decide
    · exact hUlb h1
    · revert h1; decide
  have hBlb : '[' ∉ [','] ++ pstr "type-" ++ t.type ++ [','] ++ pstr "directory-" ++
      t.directory := by
    intro hm
    simp only [List.mem_append, List.mem_singleton] at hm
    rcases hm with (((((h1 | h1) | h1) | h1) | h1) | h1)
    · revert h1; decide
    · revert h1; decide
    · exact hYlb h1
    · revert h1; decide
    · revert h1; decide
    · exact hDlb h1
  have hBrb : ']' ∉ [','] ++ pstr "type-" ++ t.type ++ [','] ++ pstr "directory-" ++
      t.directory := by
    intro hm
    simp only [List.mem_append, List.mem_singleton] at hm
    rcases hm with (((((h1 | h1) | h1) | h1) | h1) | h1)
    · revert h1; decide
    · revert h1; decide
    · exact hYrb h1
    · revert h1; decide
    · revert h1; decide
    · exact hDrb h1
  have hrt : remove_tags (encodeToolLine t) =
      some ((pstr "name-" ++ t.name ++ pstr ",url-" ++ t.url ++ [',']) ++
        ([','] ++ pstr "type-" ++ t.type ++ [','] ++ pstr "directory-" ++ t.directory),
        t.tags) := by
    rw [hdec]
    exact remove_tags_encoded _ _ _ hAlb hBlb hBrb hTags
  have hchunks : (pstr "name-" ++ t.name ++ pstr ",url-" ++ t.url ++ [',']) ++
      ([','] ++ pstr "type-" ++ t.type ++ [','] ++ pstr "directory-" ++ t.directory) =
      (['n', 'a', 'm', 'e', '-'] ++ t.name) ++ ',' ::
        ((['u', 'r', 'l', '-'] ++ t.url) ++ ',' ::
          (([] : PyStr) ++ ',' ::
            ((['t', 'y', 'p', 'e', '-'] ++ t.type) ++ ',' ::
              (['d', 'i', 'r', 'e', 'c', 't', 'o', 'r', 'y', '-'] ++ t.directory)))) := by
    simp [p1, p2, p5, p6, p7, p8, List.append_assoc]
  have hc1 : ',' ∉ ['n', 'a', 'm', 'e', '-'] ++ t.name := by
    intro hm
    rcases List.mem_append.mp hm with h1 | h1
    · revert h1; decide
    · exact hNc h1
  have hc2 : ',' ∉ ['u', 'r', 'l', '-'] ++ t.url := by
    intro hm
    rcases List.mem_append.mp hm with h1 | h1
    · revert h1; decide
    · exact hUc h1
  have hc3 : ',' ∉ ['t', 'y', 'p', 'e', '-'] ++ t.type := by
    intro hm
    rcases List.mem_append.mp hm with h1 | h1
    · revert h1; decide
    · exact hYc h1
  have hc4 : ',' ∉ ['d', 'i', 'r', 'e', 'c', 't', 'o', 'r', 'y', '-'] ++ t.directory := by
    intro hm
    rcases List.mem_append.mp hm with h1 | h1
    · revert h1; decide
    · exact hDc h1
  have hsplit5 : pySplit ((pstr "name-" ++ t.name ++ pstr ",url-" ++ t.url ++ [',']) ++
      ([','] ++ pstr "type-" ++ t.type ++ [','] ++ pstr "directory-" ++ t.directory)) ',' =
      [['n', 'a', 'm', 'e', '-'] ++ t.name, ['u', 'r', 'l', '-'] ++ t.url, [],
       ['t', 'y', 'p', 'e', '-'] ++ t.type,
       ['d', 'i', 'r', 'e', 'c', 't', 'o', 'r', 'y', '-'] ++ t.directory] := by
    rw [hchunks, pySplit_append_sep _ _ _ hc1, pySplit_append_sep _ _ _ hc2,
      pySplit_append_sep _ _ _ (by simp), pySplit_append_sep _ _ _ hc3,
      pySplit_no_sep _ _ hc4]
  have purl : pstr "url" = ['u', 'r', 'l'] := rfl
  have pdir : pstr "directory" = ['d', 'i', 'r', 'e', 'c', 't', 'o', 'r', 'y'] := rfl
  have pname : pstr "name" = ['n', 'a', 'm', 'e'] := rfl
  simp only [decodeToolLine, hstrip, hrt, hsplit5, buildDict_five, dictLookup, purl,
    pdir, pname]
  simp only [show ((['n', 'a', 'm', 'e'] : PyStr) = ['u', 'r', 'l']) = False by simp,
    show ((['u', 'r', 'l'] : PyStr) = ['u', 'r', 'l']) = True by simp,
    show ((['n', 'a', 'm', 'e'] : PyStr) = ['d', 'i', 'r', 'e', 'c', 't', 'o', 'r', 'y']) =
      False by simp,
    show ((['u', 'r', 'l'] : PyStr) = ['d', 'i', 'r', 'e', 'c', 't', 'o', 'r', 'y']) =
      False by simp,
    show ((['t', 'y', 'p', 'e'] : PyStr) = ['d', 'i', 'r', 'e', 'c', 't', 'o', 'r', 'y']) =
      False by simp,
    show ((['d', 'i', 'r', 'e', 'c', 't', 'o', 'r', 'y'] : PyStr) =
      ['d', 'i', 'r', 'e', 'c', 't', 'o', 'r', 'y']) = True by simp,
    show ((['n', 'a', 'm', 'e'] : PyStr) = ['n', 'a', 'm', 'e']) = True by simp,
    Bool.false_and, show (false = true) = False by simp, if_true, if_false]
  by_cases hurl : t.url = pstr "-"
  · rw [if_pos hurl] at hshape
    simp only [Bool.and_eq_true, decide_eq_true_eq] at hshape
    obtain ⟨⟨hty, hdir⟩, hname⟩ := hshape
    rw [if_pos hurl]
    simp only [LocalFile.init, ← hdir, Option.some.injEq]
    rw [← hname, hurl, hty]
  · rw [if_neg hurl] at hshape
    simp only [Bool.and_eq_true, decide_eq_true_eq] at hshape
    obtain ⟨⟨hgit, hty⟩, hsuf⟩ := hshape
    rw [if_neg hurl]
    simp only [Repository.init, rstrip_git _ hgit, hgit, if_true, Option.some.injEq]
    rw [if_neg hNne2, if_pos hsuf, hty]

theorem decodeSettings_encoded (cfg : Config)
    (hdir : safeField cfg.default_installation_directory = true) :
    ∃ st, decodeSettings (pyStripWS (encodeSettingsLine cfg)) = some st := by
  obtain ⟨hdc, _, _⟩ := safeField_not_mem _ hdir
  have hstripS : pyStripWS (encodeSettingsLine cfg) = encodeSettingsLine cfg := by
    apply pyStripWS_id
    · have hfront : encodeSettingsLine cfg = pstr "default_installation_directory-" ++
          (cfg.default_installation_directory ++ (pstr ",automatic_install-" ++
            pyStrOfBool cfg.automatic_install)) := by
        simp [encodeSettingsLine, List.append_assoc]
      rw [hfront]
      exact dropWhile_append_left _ _ _ (by decide) (by decide)
    · have hsplitS : encodeSettingsLine cfg = (pstr "default_installation_directory-" ++
          cfg.default_installation_directory ++ pstr ",automatic_install-") ++
          pyStrOfBool cfg.automatic_install := rfl
      rw [hsplitS, List.reverse_append]
      cases cfg.automatic_install <;>
        exact dropWhile_append_left _ _ _ (by decide) (by decide)
  have hchunkS : encodeSettingsLine cfg =
      (pstr "default_installation_directory-" ++ cfg.default_installation_directory) ++
        ',' :: (pstr "automatic_install-" ++ pyStrOfBool cfg.automatic_install) := by
    have e1 : pstr ",automatic_install-" = ',' :: pstr "automatic_install-" := rfl
    simp [encodeSettingsLine, e1, List.append_assoc]
  have hcc1 : ',' ∉ pstr "default_installation_directory-" ++
      cfg.default_installation_directory := by
    intro hm
    rcases List.mem_append.mp hm with h1 | h1
    · revert h1; decide
    · exact hdc h1
  have hcc2 : ',' ∉ pstr "automatic_install-" ++ pyStrOfBool cfg.automatic_install := by
    intro hm
    rcases List.mem_append.mp hm with h1 | h1
    · revert h1; decide
    · revert h1
      cases cfg.automatic_install <;> decide
  have hso1 : splitOnce (pstr "default_installation_directory-" ++
      cfg.default_installation_directory) '-' =
      some (pstr "default_installation_directory", cfg.default_installation_directory) := by
    have hre : pstr "default_installation_directory-" ++
        cfg.default_installation_directory =
        pstr "default_installation_directory" ++ '-' :: cfg.default_installation_directory :=
      rfl
    rw [hre]
    exact splitOnce_append (pstr "default_installation_directory")
      cfg.default_installation_directory '-' (by decide)
  have hso2 : splitOnce (pstr "automatic_install-" ++ pyStrOfBool cfg.automatic_install)
      '-' = some (pstr "automatic_install", pyStrOfBool cfg.automatic_install) := by
    have hre : pstr "automatic_install-" ++ pyStrOfBool cfg.automatic_install =
        pstr "automatic_install" ++ '-' :: pyStrOfBool cfg.automatic_install := rfl
    rw [hre]
    exact splitOnce_append (pstr "automatic_install")
      (pyStrOfBool cfg.automatic_install) '-' (by decide)
  refine ⟨dictInsert (dictInsert [] (pstr "default_installation_directory")
      (if cfg.default_installation_directory = pstr "True" then SettingVal.vBool true
       else if cfg.default_installation_directory = pstr "False" then SettingVal.vBool false
       else SettingVal.vStr cfg.default_installation_directory))
    (pstr "automatic_install")
    (if pyStrOfBool cfg.automatic_install = pstr "True" then SettingVal.vBool true
     else if pyStrOfBool cfg.automatic_install = pstr "False" then SettingVal.vBool false
     else SettingVal.vStr (pyStrOfBool cfg.automatic_install)), ?_⟩
  rw [hstripS, decodeSettings, hchunkS, pySplit_append_sep _ _ _ hcc1,
    pySplit_no_sep _ _ hcc2]
  simp only [decodeSettings.go, hso1, hso2]

theorem decodeToolLines_encoded (now : Nat) (ts : List ToolRec)
    (h : ts.all wfTool = true) :
    ∀ acc, decodeToolLines now none none (ts.map encodeToolLine) acc =
      some (acc ++ ts.map (fun t =>
        ⟨t.name, t.url, t.tags, t.type, t.directory, some now, none, none⟩)) := by
  induction ts with
  | nil =>
      intro acc
      simp [decodeToolLines]
  | cons t ts2 ih =>
      intro acc
      have hwf : wfTool t = true := by
        rw [List.all_eq_true] at h
        exact h t (by simp)
      have hrest : ts2.all wfTool = true := by
        rw [List.all_eq_true] at h ⊢
        intro x hx
        exact h x (by simp [hx])
      rw [List.map_cons]
      simp only [decodeToolLines, decodeToolLine_encoded now t hwf]
      rw [ih hrest]
      simp [List.append_assoc]

/-- C1 (amended): for every registry whose settings directory and whose
normalized tools have printable-ASCII fields (codepoints 32-126) free of
the codec's delimiters — no comma or square bracket in any field, the
directory not ending in Python whitespace, non-empty names, and
non-empty tags additionally free of quotes and backslashes, so that
Python `repr` renders every tag verbatim — encoding via `export_conf`
and decoding via `_import_conf_file` reproduces every tool's `name`,
`url`, `tags`, `type` and `directory` exactly and in order (hence as a
multiset); dates are not reproduced. -/
theorem export_roundtrip (cfg : Config) (now : Nat) (h : wfConfig cfg = true) :
    ∃ ic : ImportedConf, decodeConf now none none cfg.encodeLines = some ic ∧
      ic.tools.map proj5 = (cfg.get_tools).map proj5 := by
  rw [wfConfig, Bool.and_eq_true] at h
  obtain ⟨hdir, htools⟩ := h
  obtain ⟨st, hst⟩ := decodeSettings_encoded cfg hdir
  refine ⟨⟨st, (cfg.get_tools).map (fun t =>
    ⟨t.name, t.url, t.tags, t.type, t.directory, some now, none, none⟩)⟩, ?_, ?_⟩
  · rw [Config.encodeLines]
    simp only [decodeConf, hst]
    rw [decodeToolLines_encoded now _ htools []]
    simp
  · simp only [List.map_map]
    apply List.map_congr_left
    intro t _
    rfl

/-- A concrete delimiter-free registry: one repository, one local file. -/
def cfgRoundtrip : Config :=
  ⟨pstr "/home/u/.tman/", false,
   [⟨pstr "tman", pstr "https://github.com/u/tman.git", [pstr "sec", pstr "osint"],
     pstr "git", pstr "/home/u/.tman/tman", some 1, some 2, some 3⟩,
    ⟨pstr "x", pstr "-", [pstr "t1"], pstr "local", pstr "/tmp/x", some 4, none, none⟩]⟩

/-- Witness for C1 on `cfgRoundtrip`. -/
theorem export_roundtrip_witness :
    ∃ ic : ImportedConf, decodeConf 5 none none cfgRoundtrip.encodeLines = some ic ∧
      ic.tools.map proj5 = (cfgRoundtrip.get_tools).map proj5 :=
  export_roundtrip cfgRoundtrip 5 (by decide)

/-- A registry whose single tool carries the tag `a,b`. -/
def cfgBad : Config :=
  ⟨pstr "/h/", false,
   [⟨pstr "x", pstr "-", [pstr "a,b"], pstr "local", pstr "/tmp/x", none, none, none⟩]⟩

/-- C1 counterexample: encoding `cfgBad` and decoding the result yields a
registry whose single tool has an empty tag list — the comma inside the
tag splits its quoted token apart, both halves are stripped to empty and
dropped — so the multiset of five-field projections is not reproduced. -/
theorem export_roundtrip_counterexample :
    decodeConf 0 none none cfgBad.encodeLines =
      some ⟨[(pstr "default_installation_directory", SettingVal.vStr (pstr "/h/")),
             (pstr "automatic_install", SettingVal.vBool false)],
            [⟨pstr "x", pstr "-", [], pstr "local", pstr "/tmp/x", some 0, none, none⟩]⟩ ∧
    ([⟨pstr "x", pstr "-", [], pstr "local", pstr "/tmp/x", some 0, none,
        none⟩] : List ToolRec).map proj5 =
      [(pstr "x", pstr "-", [], pstr "local", pstr "/tmp/x")] ∧
    (cfgBad.get_tools).map proj5 =
      [(pstr "x", pstr "-", [pstr "a,b"], pstr "local", pstr "/tmp/x")] ∧
    [(pstr "x", pstr "-", ([] : List PyStr), pstr "local", pstr "/tmp/x")] ≠
      [(pstr "x", pstr "-", [pstr "a,b"], pstr "local", pstr "/tmp/x")] := by
  exact ⟨by decide, by decide, by decide, by decide⟩
